import Mathlib

/-!
Price graph, normalisation and valuation (`lib/prices/prices.go`).

A shallow embedding of the Go package `prices`.

* A Go `map[K]V` is a finite map with pairwise distinct keys: `AList`.
* `*commodities.Commodity` is only ever compared by pointer identity; a
  commodity is a natural-number handle.
* `float64` rates are taken in exact rational arithmetic (`ℚ`).  Where the
  rounding of `float64` decides a property, the two operations the program
  performs on rates are parameters (`RateOps`, `InsertWith`, `NormalizeWith`),
  instantiated with the exact ones or with the rounded ones (`round64`).
* `for k, v := range m { break }` picks an arbitrary entry of `m`.  The pick is
  driven by a schedule `sched : Nat → Nat`: in iteration `i` the entry at
  position `sched i % len(todo)` is taken, so that every entry of the frontier
  can be picked in every iteration.
* Aliasing between a graph and its copy is studied on a second model in which
  the maps are objects of a heap (`Heap`, `heapAddPrice`, `heapInsert`,
  `heapCopy`); on graphs that own their inner maps it agrees, entry by entry,
  with the model on values.
-/

set_option linter.dupNamespace false

namespace Knut

/-- A commodity identity (the pointer `*commodities.Commodity`). -/
abbrev Commodity := Nat

/-- The Go type `map[*commodities.Commodity]float64`. -/
abbrev PriceMap := AList (fun _ : Commodity => ℚ)

/-- NormalizedPrices is a map representing the price of commodities in some
base commodity. -/
abbrev NormalizedPrices := PriceMap

/-- Prices stores the price for a commodity to a target commodity.
Outer map: target commodity, inner map: commodity,
value: price in (target commodity / commodity). -/
abbrev Prices := AList (fun _ : Commodity => PriceMap)

/-- Modelled from the spec: the declaration of `ledger.Price` is missing; the
three fields are the ones `Insert` reads (`1 Commodity = Price Target`). -/
structure Price where
  Commodity : Knut.Commodity
  Target : Knut.Commodity
  Price : ℚ

/-- The expression `p[target][commodity]` with its presence flag: `none` when
the outer or the inner key is missing. -/
def entry (p : Prices) (target commodity : Commodity) : Option ℚ :=
  (p.lookup target).bind (fun i => i.lookup commodity)

/-- New creates prices. -/
def New : Prices := ∅

/-- The method `addPrice`: fetch (or create) the inner map of `target` and
store `pr` under `commodity`. -/
def addPrice (p : Prices) (target commodity : Commodity) (pr : ℚ) : Prices :=
  match p.lookup target with
  | some i => p.insert target (i.insert commodity pr)
  | none => p.insert target ((∅ : PriceMap).insert commodity pr)

/-- Insert inserts a new price. -/
def Insert (p : Prices) (pr : Price) : Prices :=
  addPrice (addPrice p pr.Target pr.Commodity pr.Price) pr.Commodity pr.Target (1 / pr.Price)

/-- The loop variables `todo` and `done` of `Normalize`. -/
structure LoopState where
  todo : NormalizedPrices
  done : NormalizedPrices

/-- The entries ranged over by `range p[currentC]` (none for a missing key). -/
def neighbors (p : Prices) (currentC : Commodity) : List (Sigma (fun _ : Commodity => ℚ)) :=
  match p.lookup currentC with
  | some i => i.entries
  | none => []

/-- The inner loop `for neighbor, price := range p[currentC]`. -/
def relax (done : NormalizedPrices) (currentP : ℚ) (todo : NormalizedPrices)
    (nbrs : List (Sigma (fun _ : Commodity => ℚ))) : NormalizedPrices :=
  nbrs.foldl (fun td e => if e.1 ∈ done then td else td.insert e.1 (e.2 * currentP)) todo

/-- One iteration of the outer loop, after `(currentC, currentP) = cur` has
been picked. -/
def loopBody (p : Prices) (st : LoopState) (cur : Sigma (fun _ : Commodity => ℚ)) : LoopState :=
  let done := st.done.insert cur.1 cur.2
  let todo := relax done cur.2 st.todo (neighbors p cur.1)
  { todo := todo.erase cur.1, done := done }

/-- The loop `for len(todo) > 0`, with a bound on the number of iterations:
`none` when the bound is exhausted before the frontier is empty.  The result
carries the number of the iteration at which the loop was left. -/
def normalizeLoop (p : Prices) (sched : Nat → Nat) :
    Nat → Nat → LoopState → Option (NormalizedPrices × Nat)
  | 0, iter, st =>
    if 0 < st.todo.entries.length then none else some (st.done, iter)
  | fuel + 1, iter, st =>
    if h : 0 < st.todo.entries.length then
      let cur := st.todo.entries.get ⟨sched iter % st.todo.entries.length, Nat.mod_lt _ h⟩
      normalizeLoop p sched fuel (iter + 1) (loopBody p st cur)
    else some (st.done, iter)

/-- All inner keys of the graph, with repetitions. -/
def innerKeys (p : Prices) : List Commodity :=
  p.entries.flatMap (fun e => e.2.keys)

/-- Normalize creates a normalized price map for the given commodity.  The
iteration bound is one more than the number of edges of the graph. -/
def Normalize (p : Prices) (c : Commodity) (sched : Nat → Nat) : Option NormalizedPrices :=
  (normalizeLoop p sched ((innerKeys p).length + 1) 0
    { todo := AList.singleton c 1, done := ∅ }).map Prod.fst

/-- Copy creates a deep copy. -/
def Copy (p : Prices) : Prices :=
  p.entries.foldl
    (fun pr e => e.2.entries.foldl (fun pr' x => addPrice pr' e.1 x.1 x.2) pr) New

/-- What `Valuate` needs of the external type `decimal.Decimal`: the constant
`decimal.Zero`, the conversion `Float64` and the constructor `NewFromFloat`. -/
structure DecimalOps (D : Type) where
  Zero : D
  Float64 : D → ℚ
  NewFromFloat : ℚ → D

/-- Decimal amounts in exact arithmetic: both conversions are the identity. -/
def exactDecimal : DecimalOps ℚ :=
  { Zero := 0, Float64 := id, NewFromFloat := id }

/-- The error built by `fmt.Errorf("No price found for %v in %v", c, n)`. -/
inductive ValuateError where
  | noPriceFound (c : Commodity) (n : NormalizedPrices)

/-- What a call of `Valuate` leaves behind: the receiver map after the call and
the two returned values. -/
structure ValuateResult (D : Type) where
  receiver : NormalizedPrices
  value : D
  err : Option ValuateError

/-- Valuate valuates the given amount. -/
def Valuate {D : Type} (ops : DecimalOps D) (n : NormalizedPrices) (c : Commodity) (a : D) :
    ValuateResult D :=
  match n.lookup c with
  | none => { receiver := n, value := ops.Zero, err := some (ValuateError.noPriceFound c n) }
  | some price =>
    let amount := ops.Float64 a
    let value := amount * price
    { receiver := n, value := ops.NewFromFloat value, err := none }

/-- The commodity `c` is a key of `p[a]`: the graph has an edge from `a` to `c`. -/
def hasEdge (p : Prices) (a c : Commodity) : Prop :=
  (entry p a c).isSome = true

instance (p : Prices) (a c : Commodity) : Decidable (hasEdge p a c) := by
  unfold hasEdge
  exact inferInstance

/-- A path `b = c0, c1, ..., ck = n` of graph edges; `l` lists `c1, ..., ck`
and is empty for the path of length zero. -/
def IsPath (p : Prices) (b : Commodity) (l : List Commodity) (n : Commodity) : Prop :=
  List.Chain (hasEdge p) b l ∧ (b :: l).getLast (List.cons_ne_nil b l) = n

/-- The structural invariant of the loop of `Normalize` for the base `b`: the
frontier and the settled set are disjoint, hold only commodities reachable from
`b`, hold `b`, and every edge out of a settled commodity ends in one of them. -/
structure Inv (p : Prices) (b : Commodity) (st : LoopState) : Prop where
  disjoint : ∀ k, k ∈ st.todo → k ∉ st.done
  reach : ∀ k, k ∈ st.todo ∨ k ∈ st.done → Relation.ReflTransGen (hasEdge p) b k
  base : b ∈ st.todo ∨ b ∈ st.done
  closed : ∀ d n, d ∈ st.done → hasEdge p d n → n ∈ st.done ∨ n ∈ st.todo

/-- The commodities that can be settled at all: the base and the inner keys. -/
def candidates (p : Prices) (b : Commodity) : Finset Commodity :=
  (b :: innerKeys p).toFinset

/-- The number of commodities that are not settled yet. -/
def unsettled (p : Prices) (b : Commodity) (st : LoopState) : Nat :=
  (candidates p b \ st.done.keys.toFinset).card

/-- The rates obtained by composing edge weights along a path that starts at the
base `b`: the base has rate `1`, and an edge of weight `w` from a commodity of
rate `v` gives its end the rate `w * v`. -/
inductive PathRate (p : Prices) (b : Commodity) : Commodity → ℚ → Prop where
  | base : PathRate p b b 1
  | step (a n : Commodity) (v w : ℚ) :
      PathRate p b a v → entry p a n = some w → PathRate p b n (w * v)

/-- The graph obtained from `New()` by inserting the observations of `obs`, in
order. -/
def InsertAll (obs : List Price) : Prices :=
  obs.foldl Insert New

/-- The product `G[c0][c1] * G[c1][c2] * ... * G[c(k-1)][ck]` of the edge weights
along the path `c0 :: [c1, ..., ck]`; `none` when one of the entries is missing,
and the empty product `1` for the path of length zero. -/
def pathProduct (p : Prices) : Commodity → List Commodity → Option ℚ
  | _, [] => some 1
  | a, n :: rest =>
    match entry p a n, pathProduct p n rest with
    | some w, some v => some (w * v)
    | _, _ => none

/-- The entry taken from the frontier in iteration `i`: the one at position
`sched i % len(todo)`, and `none` when the frontier is empty. -/
def pickAt (sched : Nat → Nat) (i : Nat) (st : LoopState) :
    Option (Sigma (fun _ : Commodity => ℚ)) :=
  st.todo.entries.get? (sched i % st.todo.entries.length)

/-- The loop variables of `Normalize p b` at the `i`-th test of `len(todo) > 0`
(counting from zero), that is at the start of iteration `i` when the frontier
is not empty; `none` when the loop has been left before. -/
def stateAt (p : Prices) (b : Commodity) (sched : Nat → Nat) : Nat → Option LoopState
  | 0 => some { todo := AList.singleton b 1, done := ∅ }
  | i + 1 =>
    match stateAt p b sched i with
    | none => none
    | some st =>
      match pickAt sched i st with
      | none => none
      | some cur => some (loopBody p st cur)

/-- An outer map as it lies in memory: a Go map value holds references, so
every target commodity is mapped to the address of its inner map. -/
abbrev RefMap := AList (fun _ : Commodity => Nat)

/-- The map objects of the Go heap: the outer maps (values of type `Prices`) and
the inner maps, by address, with the first unused address of each kind.  A
variable of type `Prices` is the address of an outer map. -/
structure Heap where
  outers : Nat → RefMap
  nextOuter : Nat
  inners : Nat → PriceMap
  nextInner : Nat

/-- The expression `p[target][commodity]` for the graph at address `g`. -/
def heapEntry (h : Heap) (g : Nat) (target commodity : Commodity) : Option ℚ :=
  ((h.outers g).lookup target).bind (fun a => (h.inners a).lookup commodity)

/-- `New` on the heap: a fresh empty outer map, and its address. -/
def heapNew (h : Heap) : Heap × Nat :=
  ({ h with outers := Function.update h.outers h.nextOuter ∅, nextOuter := h.nextOuter + 1 },
    h.nextOuter)

/-- `addPrice` on the heap: when `p[target]` is missing a fresh inner map is
allocated and stored under `target`; the inner map is then written in place. -/
def heapAddPrice (h : Heap) (g : Nat) (target commodity : Commodity) (pr : ℚ) : Heap :=
  match (h.outers g).lookup target with
  | some a =>
    { h with inners := Function.update h.inners a ((h.inners a).insert commodity pr) }
  | none =>
    { h with
      outers := Function.update h.outers g ((h.outers g).insert target h.nextInner)
      inners := Function.update h.inners h.nextInner ((∅ : PriceMap).insert commodity pr)
      nextInner := h.nextInner + 1 }

/-- `Insert` on the heap. -/
def heapInsert (h : Heap) (g : Nat) (pr : Price) : Heap :=
  heapAddPrice (heapAddPrice h g pr.Target pr.Commodity pr.Price) g pr.Commodity pr.Target
    (1 / pr.Price)

/-- `Copy` on the heap: the heap after the call and the address of the copy. -/
def heapCopy (h : Heap) (g : Nat) : Heap × Nat :=
  ((h.outers g).entries.foldl
      (fun hh e => (hh.inners e.2).entries.foldl
        (fun hh' x => heapAddPrice hh' (heapNew h).2 e.1 x.1 x.2) hh)
      (heapNew h).1,
    (heapNew h).2)

/-- The graph at address `g` is allocated and refers to allocated inner maps
only. -/
def heapValid (h : Heap) (g : Nat) : Prop :=
  g < h.nextOuter ∧ ∀ t a, (h.outers g).lookup t = some a → a < h.nextInner

/-- The graphs at the addresses `g` and `g2` are different objects that refer
to allocated inner maps and have no inner map in common. -/
def Separate (h : Heap) (g g2 : Nat) : Prop :=
  g ≠ g2 ∧
  (∀ t a, (h.outers g).lookup t = some a → a < h.nextInner) ∧
  (∀ t a, (h.outers g2).lookup t = some a → a < h.nextInner) ∧
  (∀ t t2 a, (h.outers g).lookup t = some a → (h.outers g2).lookup t2 ≠ some a)

/-- The graph at address `g` refers to allocated inner maps only, and to a
different one under every target. -/
def Owned (h : Heap) (g : Nat) : Prop :=
  (∀ t a, (h.outers g).lookup t = some a → a < h.nextInner) ∧
  (∀ t t2 a, (h.outers g).lookup t = some a → (h.outers g).lookup t2 = some a → t = t2)

/-- The heap on which no map has been allocated yet. -/
def emptyHeap : Heap :=
  { outers := fun _ => ∅, nextOuter := 0, inners := fun _ => ∅, nextInner := 0 }

/-- The two operations on rates that the program performs, `price * currentP`
in `Normalize` and `1 / pr.Price` in `Insert`, as functions of the values. -/
structure RateOps where
  mul : ℚ → ℚ → ℚ
  div : ℚ → ℚ → ℚ

/-- The operations in exact rational arithmetic. -/
def exactOps : RateOps :=
  { mul := fun a b => a * b, div := fun a b => a / b }

/-- Rounding to the nearest integer, ties to the even one. -/
def roundEven (x : ℚ) : ℤ :=
  if x - ⌊x⌋ < 1 / 2 then ⌊x⌋
  else if 1 / 2 < x - ⌊x⌋ then ⌊x⌋ + 1
  else if ⌊x⌋ % 2 = 0 then ⌊x⌋ else ⌊x⌋ + 1

/-- The exponent of the binary64 format for a value of magnitude `a`: the
exponent of the leading bit, and `-1022` in the subnormal range. -/
def exponent64 (a : ℚ) : ℤ :=
  max (Int.log 2 a) (-1022)

/-- The finite `float64` nearest to `x` (IEEE 754 binary64, 53 significant
bits, round to nearest, ties to even, gradual underflow).  Overflow is left
out: the value is the one of the program when `|x| < 2^1024`. -/
def round64 (x : ℚ) : ℚ :=
  roundEven (x / 2 ^ (exponent64 |x| - 52)) * 2 ^ (exponent64 |x| - 52)

/-- The operations of `float64` on finite values: the exact result, rounded. -/
def float64Ops : RateOps :=
  { mul := fun a b => round64 (a * b), div := fun a b => round64 (a / b) }

/-- Insert with the given arithmetic. -/
def InsertWith (ops : RateOps) (p : Prices) (pr : Price) : Prices :=
  addPrice (addPrice p pr.Target pr.Commodity pr.Price) pr.Commodity pr.Target
    (ops.div 1 pr.Price)

/-- The inner loop of `Normalize` with the given arithmetic. -/
def relaxWith (ops : RateOps) (done : NormalizedPrices) (currentP : ℚ) (todo : NormalizedPrices)
    (nbrs : List (Sigma (fun _ : Commodity => ℚ))) : NormalizedPrices :=
  nbrs.foldl (fun td e => if e.1 ∈ done then td else td.insert e.1 (ops.mul e.2 currentP)) todo

/-- One iteration of the outer loop of `Normalize` with the given arithmetic. -/
def loopBodyWith (ops : RateOps) (p : Prices) (st : LoopState)
    (cur : Sigma (fun _ : Commodity => ℚ)) : LoopState :=
  let done := st.done.insert cur.1 cur.2
  let todo := relaxWith ops done cur.2 st.todo (neighbors p cur.1)
  { todo := todo.erase cur.1, done := done }

/-- The loop of `Normalize` with the given arithmetic. -/
def normalizeLoopWith (ops : RateOps) (p : Prices) (sched : Nat → Nat) :
    Nat → Nat → LoopState → Option (NormalizedPrices × Nat)
  | 0, iter, st =>
    if 0 < st.todo.entries.length then none else some (st.done, iter)
  | fuel + 1, iter, st =>
    if h : 0 < st.todo.entries.length then
      let cur := st.todo.entries.get ⟨sched iter % st.todo.entries.length, Nat.mod_lt _ h⟩
      normalizeLoopWith ops p sched fuel (iter + 1) (loopBodyWith ops p st cur)
    else some (st.done, iter)

/-- Normalize with the given arithmetic. -/
def NormalizeWith (ops : RateOps) (p : Prices) (c : Commodity) (sched : Nat → Nat) :
    Option NormalizedPrices :=
  (normalizeLoopWith ops p sched ((innerKeys p).length + 1) 0
    { todo := AList.singleton c 1, done := ∅ }).map Prod.fst

/-! ## Finite maps -/

theorem lookup_insert_eq (m : PriceMap) (c k : Commodity) (v : ℚ) :
    (m.insert c v).lookup k = if k = c then some v else m.lookup k := by
  by_cases h : k = c
  · subst h; rw [if_pos rfl]; exact AList.lookup_insert m
  · rw [if_neg h]; exact AList.lookup_insert_ne h

theorem lookup_singleton (c k : Commodity) (v : ℚ) :
    (AList.singleton c v : PriceMap).lookup k = if k = c then some v else none := by
  rw [← AList.insert_empty, lookup_insert_eq, AList.lookup_empty]

theorem lookup_erase_eq (m : PriceMap) (c k : Commodity) :
    (m.erase c).lookup k = if k = c then none else m.lookup k := by
  by_cases h : k = c
  · subst h; rw [if_pos rfl]; exact AList.lookup_erase k m
  · rw [if_neg h]; exact AList.lookup_erase_ne h

theorem mem_iff_lookup (m : PriceMap) (k : Commodity) :
    k ∈ m ↔ ∃ v, m.lookup k = some v := by
  rw [← AList.lookup_isSome, Option.isSome_iff_exists]

/-! ## The graph operations, entry by entry -/

theorem entry_New (a k : Commodity) : entry New a k = none := by
  simp [entry, New]

theorem entry_addPrice (p : Prices) (t c : Commodity) (v : ℚ) (a k : Commodity) :
    entry (addPrice p t c v) a k = if a = t ∧ k = c then some v else entry p a k := by
  unfold addPrice entry
  by_cases hat : a = t
  · subst hat
    cases h : p.lookup a
    · show ((AList.insert a _ p).lookup a).bind _ = _
      rw [AList.lookup_insert]
      simp only [Option.some_bind, Option.none_bind, lookup_insert_eq, AList.lookup_empty]
      by_cases hk : k = c <;> simp [hk]
    · show ((AList.insert a _ p).lookup a).bind _ = _
      rw [AList.lookup_insert]
      simp only [Option.some_bind, lookup_insert_eq]
      by_cases hk : k = c <;> simp [hk]
  · cases h : p.lookup t <;> simp [AList.lookup_insert_ne hat, hat]

theorem entry_Insert (p : Prices) (pr : Price) (a k : Commodity) :
    entry (Insert p pr) a k =
      if a = pr.Commodity ∧ k = pr.Target then some (1 / pr.Price)
      else if a = pr.Target ∧ k = pr.Commodity then some pr.Price
      else entry p a k := by
  unfold Insert
  rw [entry_addPrice, entry_addPrice]

/-! ## One iteration of the loop of `Normalize`, key by key -/

theorem relax_lookup (done : NormalizedPrices) (currentP : ℚ) (k : Commodity) :
    ∀ (nbrs : List (Sigma (fun _ : Commodity => ℚ))) (todo : NormalizedPrices),
      nbrs.NodupKeys →
      (relax done currentP todo nbrs).lookup k =
        match nbrs.dlookup k with
        | some w => if k ∈ done then todo.lookup k else some (w * currentP)
        | none => todo.lookup k := by
  intro nbrs
  induction nbrs with
  | nil => intro todo _; simp [relax]
  | cons e rest ih =>
    intro todo hnd
    have hrest : rest.NodupKeys := (List.nodupKeys_cons.mp hnd).2
    have hnotin : e.1 ∉ rest.keys := (List.nodupKeys_cons.mp hnd).1
    have hstep : relax done currentP todo (e :: rest) =
        relax done currentP (if e.1 ∈ done then todo else todo.insert e.1 (e.2 * currentP)) rest := by
      simp [relax]
    rw [hstep, ih _ hrest]
    by_cases hk : e.1 = k
    · subst hk
      have hnone : rest.dlookup e.1 = none := List.dlookup_eq_none.mpr hnotin
      rw [hnone, List.dlookup_cons_eq]
      by_cases hd : e.1 ∈ done
      · simp [hd]
      · simp only [hd, if_false]
        exact AList.lookup_insert todo
    · rw [List.dlookup_cons_ne _ _ (fun h => hk h.symm)]
      have hsame : (if e.1 ∈ done then todo else todo.insert e.1 (e.2 * currentP)).lookup k
          = todo.lookup k := by
        by_cases hd : e.1 ∈ done
        · simp [hd]
        · simp only [hd, if_false]
          exact AList.lookup_insert_ne (fun h => hk h.symm)
      rw [hsame]

theorem neighbors_nodupKeys (p : Prices) (c : Commodity) : (neighbors p c).NodupKeys := by
  unfold neighbors
  cases p.lookup c with
  | none => exact List.nodupKeys_nil
  | some i => exact i.nodupKeys

theorem neighbors_dlookup (p : Prices) (c k : Commodity) :
    (neighbors p c).dlookup k = entry p c k := by
  unfold neighbors entry
  cases p.lookup c with
  | none => rfl
  | some i => rfl

theorem loopBody_done (p : Prices) (st : LoopState) (cur : Sigma (fun _ : Commodity => ℚ))
    (k : Commodity) :
    (loopBody p st cur).done.lookup k = if k = cur.1 then some cur.2 else st.done.lookup k := by
  unfold loopBody
  exact lookup_insert_eq _ _ _ _

theorem loopBody_todo (p : Prices) (st : LoopState) (cur : Sigma (fun _ : Commodity => ℚ))
    (k : Commodity) :
    (loopBody p st cur).todo.lookup k =
      if k = cur.1 then none
      else match entry p cur.1 k with
        | some w => if k ∈ st.done then st.todo.lookup k else some (w * cur.2)
        | none => st.todo.lookup k := by
  unfold loopBody
  simp only
  rw [lookup_erase_eq, relax_lookup _ _ _ _ _ (neighbors_nodupKeys p cur.1), neighbors_dlookup]
  by_cases hk : k = cur.1
  · simp [hk]
  · simp only [hk, if_false]
    cases entry p cur.1 k with
    | none => rfl
    | some w =>
      simp only [AList.mem_insert, hk, false_or]

theorem hasEdge_iff (p : Prices) (a c : Commodity) :
    hasEdge p a c ↔ ∃ w, entry p a c = some w := by
  unfold hasEdge
  exact Option.isSome_iff_exists

theorem loopBody_mem_done (p : Prices) (st : LoopState) (cur : Sigma (fun _ : Commodity => ℚ))
    (k : Commodity) :
    k ∈ (loopBody p st cur).done ↔ k = cur.1 ∨ k ∈ st.done := by
  unfold loopBody
  exact AList.mem_insert _

theorem loopBody_mem_todo (p : Prices) (st : LoopState) (cur : Sigma (fun _ : Commodity => ℚ))
    (k : Commodity) :
    k ∈ (loopBody p st cur).todo ↔
      k ≠ cur.1 ∧ (k ∈ st.todo ∨ (hasEdge p cur.1 k ∧ k ∉ st.done)) := by
  rw [← AList.lookup_isSome, loopBody_todo, hasEdge]
  by_cases hk : k = cur.1
  · simp [hk]
  · simp only [hk, if_false, ne_eq, not_false_eq_true, true_and]
    cases hentry : entry p cur.1 k with
    | none => simp [AList.lookup_isSome]
    | some w =>
      by_cases hd : k ∈ st.done
      · simp [hd, AList.lookup_isSome]
      · simp [hd]

theorem mem_entries_lookup (m : PriceMap) (cur : Sigma (fun _ : Commodity => ℚ))
    (h : cur ∈ m.entries) : m.lookup cur.1 = some cur.2 := by
  have : cur.2 ∈ m.lookup cur.1 := AList.mem_lookup_iff.mpr h
  exact this

theorem mem_entries_mem (m : PriceMap) (cur : Sigma (fun _ : Commodity => ℚ))
    (h : cur ∈ m.entries) : cur.1 ∈ m :=
  (mem_iff_lookup m cur.1).mpr ⟨cur.2, mem_entries_lookup m cur h⟩

theorem entries_nil_not_mem (m : PriceMap) (h : m.entries = []) (k : Commodity) : k ∉ m := by
  rw [AList.mem_keys, AList.keys, h]
  simp

/-! ## The loop rule -/

/-- Hoare rule of the loop: a property of the iteration number and the loop
variables that every iteration preserves holds when the loop is left, and
then the frontier is empty. -/
theorem normalizeLoop_induct (p : Prices) (sched : Nat → Nat) (J : Nat → LoopState → Prop)
    (hstep : ∀ i st cur, J i st → cur ∈ st.todo.entries → J (i + 1) (loopBody p st cur)) :
    ∀ (fuel iter : Nat) (st : LoopState) (r : NormalizedPrices × Nat),
      J iter st → normalizeLoop p sched fuel iter st = some r →
      ∃ st', J r.2 st' ∧ st'.todo.entries = [] ∧ r.1 = st'.done := by
  intro fuel
  induction fuel with
  | zero =>
    intro iter st r hJ hr
    unfold normalizeLoop at hr
    by_cases h : 0 < st.todo.entries.length
    · simp [h] at hr
    · simp only [h, if_false, Option.some.injEq] at hr
      subst hr
      exact ⟨st, hJ, List.length_eq_zero.mp (Nat.eq_zero_of_not_pos h), rfl⟩
  | succ fuel ih =>
    intro iter st r hJ hr
    unfold normalizeLoop at hr
    by_cases h : 0 < st.todo.entries.length
    · simp only [h, dite_true] at hr
      exact ih _ _ r (hstep iter st _ hJ (List.get_mem _ _ _)) hr
    · simp only [h, dite_false, Option.some.injEq] at hr
      subst hr
      exact ⟨st, hJ, List.length_eq_zero.mp (Nat.eq_zero_of_not_pos h), rfl⟩

/-! ## The structural invariant -/

theorem Inv_init (p : Prices) (b : Commodity) :
    Inv p b { todo := AList.singleton b 1, done := ∅ } := by
  refine ⟨?_, ?_, ?_, ?_⟩
  · intro k _
    exact AList.not_mem_empty k
  · intro k hk
    rcases hk with hk | hk
    · rw [mem_iff_lookup] at hk
      obtain ⟨v, hv⟩ := hk
      rw [lookup_singleton] at hv
      by_cases hkb : k = b
      · subst hkb; exact Relation.ReflTransGen.refl
      · simp [hkb] at hv
    · exact absurd hk (AList.not_mem_empty k)
  · left
    rw [mem_iff_lookup]
    exact ⟨1, by rw [lookup_singleton, if_pos rfl]⟩
  · intro d n hd _
    exact absurd hd (AList.not_mem_empty d)

theorem Inv_step (p : Prices) (b : Commodity) (st : LoopState)
    (cur : Sigma (fun _ : Commodity => ℚ)) (hI : Inv p b st) (hcur : cur ∈ st.todo.entries) :
    Inv p b (loopBody p st cur) := by
  have hcm : cur.1 ∈ st.todo := mem_entries_mem _ _ hcur
  refine ⟨?_, ?_, ?_, ?_⟩
  · intro k hk
    rw [loopBody_mem_todo] at hk
    rw [loopBody_mem_done]
    rintro (h | h)
    · exact hk.1 h
    · rcases hk.2 with h2 | h2
      · exact hI.disjoint k h2 h
      · exact h2.2 h
  · intro k hk
    rw [loopBody_mem_todo, loopBody_mem_done] at hk
    rcases hk with ⟨_, h | h⟩ | h | h
    · exact hI.reach k (Or.inl h)
    · exact Relation.ReflTransGen.tail (hI.reach _ (Or.inl hcm)) h.1
    · rw [h]; exact hI.reach _ (Or.inl hcm)
    · exact hI.reach k (Or.inr h)
  · rw [loopBody_mem_todo, loopBody_mem_done]
    by_cases hb : b = cur.1
    · exact Or.inr (Or.inl hb)
    · rcases hI.base with h | h
      · exact Or.inl ⟨hb, Or.inl h⟩
      · exact Or.inr (Or.inr h)
  · intro d n hd hedge
    rw [loopBody_mem_todo, loopBody_mem_done]
    rw [loopBody_mem_done] at hd
    by_cases hn : n = cur.1
    · exact Or.inl (Or.inl hn)
    · rcases hd with hd | hd
      · by_cases hnd : n ∈ st.done
        · exact Or.inl (Or.inr hnd)
        · rw [hd] at hedge
          exact Or.inr ⟨hn, Or.inr ⟨hedge, hnd⟩⟩
      · rcases hI.closed d n hd hedge with h | h
        · exact Or.inl (Or.inr h)
        · exact Or.inr ⟨hn, Or.inl h⟩

/-- When the frontier is empty the settled set is the set of the commodities
reachable from the base. -/
theorem Inv_final (p : Prices) (b : Commodity) (st : LoopState) (hI : Inv p b st)
    (hempty : st.todo.entries = []) (n : Commodity) :
    n ∈ st.done ↔ Relation.ReflTransGen (hasEdge p) b n := by
  constructor
  · intro h
    exact hI.reach n (Or.inr h)
  · intro h
    induction h with
    | refl =>
      rcases hI.base with h | h
      · exact absurd h (entries_nil_not_mem _ hempty b)
      · exact h
    | tail _ hedge ih =>
      rcases hI.closed _ _ ih hedge with h | h
      · exact h
      · exact absurd h (entries_nil_not_mem _ hempty _)

/-! ## Termination -/

theorem hasEdge_mem_innerKeys (p : Prices) (a k : Commodity) (h : hasEdge p a k) :
    k ∈ innerKeys p := by
  rw [hasEdge_iff] at h
  obtain ⟨w, hw⟩ := h
  unfold entry at hw
  cases hi : p.lookup a with
  | none => rw [hi] at hw; simp at hw
  | some i =>
    rw [hi] at hw
    have hmem : Sigma.mk a i ∈ p.entries := AList.mem_lookup_iff.mp hi
    have hk : k ∈ i := (mem_iff_lookup i k).mpr ⟨w, hw⟩
    unfold innerKeys
    rw [List.mem_flatMap]
    exact ⟨Sigma.mk a i, hmem, AList.mem_keys.mp hk⟩

theorem reach_mem_candidates (p : Prices) (b k : Commodity)
    (h : Relation.ReflTransGen (hasEdge p) b k) : k ∈ candidates p b := by
  unfold candidates
  rw [List.mem_toFinset]
  cases h with
  | refl => exact List.mem_cons_self _ _
  | tail _ hedge => exact List.mem_cons_of_mem _ (hasEdge_mem_innerKeys p _ k hedge)

theorem unsettled_pos (p : Prices) (b : Commodity) (st : LoopState) (hI : Inv p b st)
    (cur : Sigma (fun _ : Commodity => ℚ)) (hcur : cur ∈ st.todo.entries) :
    0 < unsettled p b st := by
  have hcm : cur.1 ∈ st.todo := mem_entries_mem _ _ hcur
  unfold unsettled
  apply Finset.card_pos.mpr
  refine ⟨cur.1, ?_⟩
  rw [Finset.mem_sdiff, List.mem_toFinset, ← AList.mem_keys]
  exact ⟨reach_mem_candidates p b _ (hI.reach _ (Or.inl hcm)), hI.disjoint _ hcm⟩

theorem unsettled_step (p : Prices) (b : Commodity) (st : LoopState) (hI : Inv p b st)
    (cur : Sigma (fun _ : Commodity => ℚ)) (hcur : cur ∈ st.todo.entries) :
    unsettled p b (loopBody p st cur) < unsettled p b st := by
  have hcm : cur.1 ∈ st.todo := mem_entries_mem _ _ hcur
  unfold unsettled
  apply Finset.card_lt_card
  rw [Finset.ssubset_iff_of_subset]
  · refine ⟨cur.1, ?_, ?_⟩
    · rw [Finset.mem_sdiff, List.mem_toFinset, ← AList.mem_keys]
      exact ⟨reach_mem_candidates p b _ (hI.reach _ (Or.inl hcm)), hI.disjoint _ hcm⟩
    · rw [Finset.mem_sdiff, List.mem_toFinset, ← AList.mem_keys, loopBody_mem_done]
      exact fun h => h.2 (Or.inl rfl)
  · intro k
    rw [Finset.mem_sdiff, Finset.mem_sdiff, List.mem_toFinset, List.mem_toFinset,
      ← AList.mem_keys, ← AList.mem_keys, loopBody_mem_done]
    exact fun h => ⟨h.1, fun h2 => h.2 (Or.inr h2)⟩

/-- The loop is left as soon as the bound is at least the number of unsettled
candidates. -/
theorem normalizeLoop_total (p : Prices) (sched : Nat → Nat) (b : Commodity) :
    ∀ (fuel iter : Nat) (st : LoopState), Inv p b st → unsettled p b st ≤ fuel →
      ∃ r, normalizeLoop p sched fuel iter st = some r := by
  intro fuel
  induction fuel with
  | zero =>
    intro iter st hI hle
    unfold normalizeLoop
    by_cases h : 0 < st.todo.entries.length
    · have hpos := unsettled_pos p b st hI (st.todo.entries.get ⟨0, h⟩) (List.get_mem _ _ _)
      omega
    · exact ⟨(st.done, iter), by simp [h]⟩
  | succ fuel ih =>
    intro iter st hI hle
    unfold normalizeLoop
    by_cases h : 0 < st.todo.entries.length
    · simp only [h, dite_true]
      have hmem : st.todo.entries.get ⟨sched iter % st.todo.entries.length, Nat.mod_lt _ h⟩
          ∈ st.todo.entries := List.get_mem _ _ _
      have hlt := unsettled_step p b st hI _ hmem
      exact ih _ _ (Inv_step p b st _ hI hmem) (by omega)
    · exact ⟨(st.done, iter), by simp [h]⟩

theorem unsettled_init_le (p : Prices) (b : Commodity) :
    unsettled p b { todo := AList.singleton b 1, done := ∅ } ≤ (innerKeys p).length + 1 := by
  unfold unsettled candidates
  calc ((b :: innerKeys p).toFinset \ _).card
      ≤ (b :: innerKeys p).toFinset.card := Finset.card_le_card Finset.sdiff_subset
    _ ≤ (b :: innerKeys p).length := List.toFinset_card_le _
    _ = (innerKeys p).length + 1 := List.length_cons _ _

/-- `Normalize` returns, and whatever every iteration preserves (together
with the structural invariant) holds of the loop variables it is left with. -/
theorem Normalize_induct (p : Prices) (b : Commodity) (sched : Nat → Nat)
    (J : Nat → LoopState → Prop)
    (h0 : J 0 { todo := AList.singleton b 1, done := ∅ })
    (hstep : ∀ i st cur, Inv p b st → J i st → cur ∈ st.todo.entries →
      J (i + 1) (loopBody p st cur)) :
    ∃ st iters, normalizeLoop p sched ((innerKeys p).length + 1) 0
          { todo := AList.singleton b 1, done := ∅ } = some (st.done, iters) ∧
      Normalize p b sched = some st.done ∧ st.todo.entries = [] ∧ Inv p b st ∧ J iters st := by
  obtain ⟨r, hr⟩ := normalizeLoop_total p sched b ((innerKeys p).length + 1) 0
    { todo := AList.singleton b 1, done := ∅ } (Inv_init p b) (unsettled_init_le p b)
  obtain ⟨st, hJ, hempty, hdone⟩ := normalizeLoop_induct p sched
    (fun i st => Inv p b st ∧ J i st)
    (fun i st cur h hcur => ⟨Inv_step p b st cur h.1 hcur, hstep i st cur h.1 h.2 hcur⟩)
    _ _ _ r ⟨Inv_init p b, h0⟩ hr
  refine ⟨st, r.2, ?_, ?_, hempty, hJ.1, hJ.2⟩
  · rw [hr, ← hdone]
  · unfold Normalize
    rw [hr, ← hdone]
    rfl

/-! ## What `Normalize` returns -/

/-- A settled commodity keeps its rate. -/
theorem loopBody_done_stable (p : Prices) (b : Commodity) (st : LoopState)
    (cur : Sigma (fun _ : Commodity => ℚ)) (hI : Inv p b st) (hcur : cur ∈ st.todo.entries)
    (k : Commodity) (v : ℚ) (h : st.done.lookup k = some v) :
    (loopBody p st cur).done.lookup k = some v := by
  rw [loopBody_done]
  have hk : k ≠ cur.1 := by
    intro hk
    have hkd : k ∈ st.done := (mem_iff_lookup _ _).mpr ⟨v, h⟩
    rw [hk] at hkd
    exact hI.disjoint _ (mem_entries_mem _ _ hcur) hkd
  rw [if_neg hk, h]

theorem Normalize_spec (p : Prices) (b : Commodity) (sched : Nat → Nat) :
    ∃ r, Normalize p b sched = some r ∧
      (∀ n, n ∈ r ↔ Relation.ReflTransGen (hasEdge p) b n) ∧
      r.lookup b = some 1 ∧
      (∀ k v, r.lookup k = some v → PathRate p b k v) := by
  obtain ⟨st, _, _, hN, hempty, hI, hJ⟩ := Normalize_induct p b sched
    (fun _ st =>
      (st.done.lookup b = some 1 ∨ (st.todo.lookup b = some 1 ∧ ∀ k, k ∈ st.todo → k = b)) ∧
      (∀ k v, st.todo.lookup k = some v ∨ st.done.lookup k = some v → PathRate p b k v))
    (by
      constructor
      · right
        constructor
        · rw [lookup_singleton, if_pos rfl]
        · intro k hk
          rw [mem_iff_lookup] at hk
          obtain ⟨v, hv⟩ := hk
          rw [lookup_singleton] at hv
          by_contra hkb
          simp [hkb] at hv
      · intro k v hkv
        rcases hkv with h | h
        · rw [lookup_singleton] at h
          by_cases hkb : k = b
          · simp only [hkb, if_true, Option.some.injEq] at h
            rw [hkb, ← h]
            exact PathRate.base
          · simp [hkb] at h
        · rw [AList.lookup_empty] at h
          exact absurd h (by simp))
    (by
      intro _ st cur hI hJ hcur
      have hcl : st.todo.lookup cur.1 = some cur.2 := mem_entries_lookup _ _ hcur
      constructor
      · rcases hJ.1 with h | h
        · exact Or.inl (loopBody_done_stable p b st cur hI hcur b 1 h)
        · left
          have hcb : cur.1 = b := h.2 _ (mem_entries_mem _ _ hcur)
          rw [hcb, h.1] at hcl
          rw [loopBody_done, if_pos hcb.symm]
          exact hcl.symm
      · intro k v hkv
        rcases hkv with h | h
        · rw [loopBody_todo] at h
          by_cases hk : k = cur.1
          · simp [hk] at h
          · simp only [hk, if_false] at h
            cases hentry : entry p cur.1 k with
            | none =>
              rw [hentry] at h
              exact hJ.2 k v (Or.inl h)
            | some w =>
              rw [hentry] at h
              by_cases hd : k ∈ st.done
              · simp only [hd, if_true] at h
                exact hJ.2 k v (Or.inl h)
              · simp only [hd, if_false, Option.some.injEq] at h
                rw [← h]
                exact PathRate.step cur.1 k cur.2 w (hJ.2 _ _ (Or.inl hcl)) hentry
        · rw [loopBody_done] at h
          by_cases hk : k = cur.1
          · simp only [hk, if_true, Option.some.injEq] at h
            rw [hk, ← h]
            exact hJ.2 _ _ (Or.inl hcl)
          · simp only [hk, if_false] at h
            exact hJ.2 k v (Or.inr h))
  refine ⟨st.done, hN, Inv_final p b st hI hempty, ?_, fun k v h => hJ.2 k v (Or.inr h)⟩
  rcases hJ.1 with h | h
  · exact h
  · have : b ∈ st.todo := (mem_iff_lookup _ _).mpr ⟨1, h.1⟩
    exact absurd this (entries_nil_not_mem _ hempty b)

/-- A property of rates that holds of the base with rate `1` and that the edges
out of reachable commodities carry along holds of every returned rate. -/
theorem PathRate_good (p : Prices) (b : Commodity) (Good : Commodity → ℚ → Prop)
    (hbase : Good b 1)
    (hedge : ∀ a n v w, Good a v → entry p a n = some w → Good n (w * v)) :
    ∀ k v, PathRate p b k v → Good k v := by
  intro k v h
  induction h with
  | base => exact hbase
  | step a n v w _ hw ih => exact hedge a n v w ih hw

/-! ## Copy, entry by entry -/

theorem copyInner_entry (t a k : Commodity) :
    ∀ (xs : List (Sigma (fun _ : Commodity => ℚ))) (pr : Prices), xs.NodupKeys →
      entry (xs.foldl (fun pr' x => addPrice pr' t x.1 x.2) pr) a k =
        if a = t then
          match xs.dlookup k with
          | some v => some v
          | none => entry pr a k
        else entry pr a k := by
  intro xs
  induction xs with
  | nil => intro pr _; simp
  | cons x rest ih =>
    intro pr hnd
    have hrest : rest.NodupKeys := (List.nodupKeys_cons.mp hnd).2
    have hnotin : x.1 ∉ rest.keys := (List.nodupKeys_cons.mp hnd).1
    rw [List.foldl_cons, ih _ hrest, entry_addPrice]
    by_cases hat : a = t
    · simp only [hat, if_true, true_and]
      by_cases hk : k = x.1
      · subst hk
        rw [List.dlookup_eq_none.mpr hnotin, List.dlookup_cons_eq]
        simp
      · rw [List.dlookup_cons_ne _ _ hk, if_neg hk]
    · simp [hat]

theorem copyOuter_entry (a k : Commodity) :
    ∀ (es : List (Sigma (fun _ : Commodity => PriceMap))) (pr : Prices), es.NodupKeys →
      entry (es.foldl
          (fun pr e => e.2.entries.foldl (fun pr' x => addPrice pr' e.1 x.1 x.2) pr) pr) a k =
        match (es.dlookup a).bind (fun i => i.lookup k) with
        | some v => some v
        | none => entry pr a k := by
  intro es
  induction es with
  | nil => intro pr _; simp
  | cons e rest ih =>
    intro pr hnd
    have hrest : rest.NodupKeys := (List.nodupKeys_cons.mp hnd).2
    have hnotin : e.1 ∉ rest.keys := (List.nodupKeys_cons.mp hnd).1
    rw [List.foldl_cons, ih _ hrest, copyInner_entry _ _ _ _ _ e.2.nodupKeys]
    by_cases ha : a = e.1
    · subst ha
      rw [List.dlookup_eq_none.mpr hnotin, List.dlookup_cons_eq]
      simp only [Option.none_bind, Option.some_bind, if_true]
      rfl
    · rw [List.dlookup_cons_ne _ _ ha, if_neg ha]

theorem entry_Copy (p : Prices) (a k : Commodity) : entry (Copy p) a k = entry p a k := by
  unfold Copy
  rw [copyOuter_entry _ _ _ _ p.nodupKeys, entry_New]
  unfold entry
  show (match (p.lookup a).bind (fun i => i.lookup k) with
    | some v => some v
    | none => none) = _
  cases (p.lookup a).bind (fun i => i.lookup k) <;> rfl

/-- The result of `Normalize` on a graph whose edges out of a set `S` of
commodities stay in `S` and agree with a valuation `val` (`val b = 1` and an
edge of weight `w` from `a` to `n` has `val n = w * val a`), when all of `S` is
reachable from the base: exactly the commodities of `S`, at their values. -/
theorem Normalize_of_valuation (p : Prices) (b : Commodity) (sched : Nat → Nat)
    (S : Finset Commodity) (val : Commodity → ℚ) (hb : b ∈ S) (hvb : val b = 1)
    (hedge : ∀ a n w, a ∈ S → entry p a n = some w → n ∈ S ∧ val n = w * val a)
    (hreach : ∀ n, n ∈ S → Relation.ReflTransGen (hasEdge p) b n) :
    ∃ r, Normalize p b sched = some r ∧
      ∀ k, r.lookup k = if k ∈ S then some (val k) else none := by
  obtain ⟨r, hN, hmem, _, hrate⟩ := Normalize_spec p b sched
  have hgood : ∀ k v, r.lookup k = some v → k ∈ S ∧ v = val k := by
    intro k v h
    refine PathRate_good p b (fun k v => k ∈ S ∧ v = val k) ⟨hb, hvb.symm⟩ ?_ k v (hrate k v h)
    intro a n v w hav hw
    obtain ⟨hn, hval⟩ := hedge a n w hav.1 hw
    exact ⟨hn, by rw [hval, hav.2]⟩
  refine ⟨r, hN, ?_⟩
  intro k
  by_cases hk : k ∈ S
  · rw [if_pos hk]
    obtain ⟨v, hv⟩ := (mem_iff_lookup r k).mp ((hmem k).mpr (hreach k hk))
    rw [hv, (hgood k v hv).2]
  · rw [if_neg hk]
    cases h : r.lookup k with
    | none => rfl
    | some v => exact absurd (hgood k v h).1 hk

/-- The graph of a single observation, normalised for either end. -/
theorem Normalize_single (c t : Commodity) (r : ℚ) (hct : c ≠ t) (hr : r ≠ 0)
    (sched : Nat → Nat) :
    (∃ res, Normalize (Insert New { Commodity := c, Target := t, Price := r }) t sched = some res ∧
      res.lookup c = some r) ∧
    (∃ res, Normalize (Insert New { Commodity := c, Target := t, Price := r }) c sched = some res ∧
      res.lookup t = some (1 / r)) := by
  have hedge_tc : hasEdge (Insert New { Commodity := c, Target := t, Price := r }) t c := by
    rw [hasEdge_iff, entry_Insert]
    exact ⟨r, by simp [hct, Ne.symm hct]⟩
  have hedge_ct : hasEdge (Insert New { Commodity := c, Target := t, Price := r }) c t := by
    rw [hasEdge_iff, entry_Insert]
    exact ⟨1 / r, by simp⟩
  constructor
  · obtain ⟨res, hN, hres⟩ := Normalize_of_valuation
      (Insert New { Commodity := c, Target := t, Price := r }) t sched {t, c}
      (fun k => if k = t then 1 else r) (by simp) (by simp)
      (by
        intro a n w ha hw
        rw [entry_Insert, entry_New] at hw
        simp only [Finset.mem_insert, Finset.mem_singleton] at ha ⊢
        split_ifs at hw with h1 h2
        · rw [Option.some.injEq] at hw
          simp [h1.1, h1.2, hct, ← hw, hr]
        · rw [Option.some.injEq] at hw
          simp [h2.1, h2.2, hct, ← hw])
      (by
        intro n hn
        simp only [Finset.mem_insert, Finset.mem_singleton] at hn
        rcases hn with hn | hn
        · rw [hn]
        · rw [hn]; exact Relation.ReflTransGen.single hedge_tc)
    refine ⟨res, hN, ?_⟩
    rw [hres c]
    simp [hct]
  · obtain ⟨res, hN, hres⟩ := Normalize_of_valuation
      (Insert New { Commodity := c, Target := t, Price := r }) c sched {c, t}
      (fun k => if k = c then 1 else 1 / r) (by simp) (by simp)
      (by
        intro a n w ha hw
        rw [entry_Insert, entry_New] at hw
        simp only [Finset.mem_insert, Finset.mem_singleton] at ha ⊢
        split_ifs at hw with h1 h2
        · rw [Option.some.injEq] at hw
          simp [h1.1, h1.2, Ne.symm hct, ← hw]
        · rw [Option.some.injEq] at hw
          simp [h2.1, h2.2, Ne.symm hct, ← hw, hr])
      (by
        intro n hn
        simp only [Finset.mem_insert, Finset.mem_singleton] at hn
        rcases hn with hn | hn
        · rw [hn]
        · rw [hn]; exact Relation.ReflTransGen.single hedge_ct)
    refine ⟨res, hN, ?_⟩
    rw [hres t]
    simp [Ne.symm hct]

theorem reach_iff_path (p : Prices) (b n : Commodity) :
    Relation.ReflTransGen (hasEdge p) b n ↔ ∃ l, IsPath p b l n := by
  constructor
  · intro h
    obtain ⟨l, hl, hlast⟩ := List.exists_chain_of_relationReflTransGen h
    exact ⟨l, hl, hlast⟩
  · rintro ⟨l, hl, hlast⟩
    exact List.relationReflTransGen_of_exists_chain l hl hlast

/-- The graph of the observations `1 usd = 0.9 eur` and `1 eur = 0.85 gbp`,
normalised for `gbp`. -/
theorem Normalize_two_hops (usd eur gbp : Commodity) (h1 : usd ≠ eur) (h2 : eur ≠ gbp)
    (h3 : usd ≠ gbp) (sched : Nat → Nat) :
    ∃ r, Normalize (Insert (Insert New { Commodity := usd, Target := eur, Price := 9 / 10 })
          { Commodity := eur, Target := gbp, Price := 85 / 100 }) gbp sched = some r ∧
      ∀ k, r.lookup k =
        if k = gbp then some 1 else if k = eur then some (85 / 100)
        else if k = usd then some (9 / 10 * (85 / 100)) else none := by
  have hentry : ∀ a n, entry (Insert (Insert New { Commodity := usd, Target := eur, Price := 9 / 10 })
        { Commodity := eur, Target := gbp, Price := 85 / 100 }) a n =
      if a = eur ∧ n = gbp then some (1 / (85 / 100))
      else if a = gbp ∧ n = eur then some (85 / 100)
      else if a = usd ∧ n = eur then some (1 / (9 / 10))
      else if a = eur ∧ n = usd then some (9 / 10) else none := by
    intro a n
    rw [entry_Insert, entry_Insert, entry_New]
  obtain ⟨r, hN, hres⟩ := Normalize_of_valuation _ gbp sched {gbp, eur, usd}
    (fun k => if k = gbp then 1 else if k = eur then 85 / 100 else 9 / 10 * (85 / 100))
    (by simp) (by simp)
    (by
      intro a n w _ hw
      rw [hentry] at hw
      simp only [Finset.mem_insert, Finset.mem_singleton]
      split_ifs at hw with c1 c2 c3 c4
      · rw [Option.some.injEq] at hw
        simp only [c1.1, c1.2, h2, if_true, if_false, true_or, true_and, ← hw]
        norm_num
      · rw [Option.some.injEq] at hw
        simp only [c2.1, c2.2, h2, if_true, if_false, true_or, or_true, true_and, ← hw]
        norm_num
      · rw [Option.some.injEq] at hw
        simp only [c3.1, c3.2, h1, h2, h3, if_true, if_false, true_or, or_true, true_and, ← hw]
        norm_num
      · rw [Option.some.injEq] at hw
        simp only [c4.1, c4.2, h1, h2, h3, if_true, if_false, true_or, or_true, true_and, ← hw])
    (by
      have e1 : hasEdge (Insert (Insert New { Commodity := usd, Target := eur, Price := 9 / 10 })
          { Commodity := eur, Target := gbp, Price := 85 / 100 }) gbp eur := by
        rw [hasEdge_iff, hentry]
        exact ⟨85 / 100, by simp [Ne.symm h2]⟩
      have e2 : hasEdge (Insert (Insert New { Commodity := usd, Target := eur, Price := 9 / 10 })
          { Commodity := eur, Target := gbp, Price := 85 / 100 }) eur usd := by
        rw [hasEdge_iff, hentry]
        exact ⟨9 / 10, by simp [Ne.symm h1, h2, h3]⟩
      intro n hn
      simp only [Finset.mem_insert, Finset.mem_singleton] at hn
      rcases hn with hn | hn | hn
      · rw [hn]
      · rw [hn]; exact Relation.ReflTransGen.single e1
      · rw [hn]; exact Relation.ReflTransGen.tail (Relation.ReflTransGen.single e1) e2)
  refine ⟨r, hN, ?_⟩
  intro k
  rw [hres k]
  simp only [Finset.mem_insert, Finset.mem_singleton]
  by_cases k1 : k = gbp
  · simp [k1]
  · by_cases k2 : k = eur
    · simp [k2, h2]
    · by_cases k3 : k = usd
      · simp [k3, h1, h3]
      · simp [k1, k2, k3]

theorem Valuate_present {D : Type} (ops : DecimalOps D) (n : NormalizedPrices) (c : Commodity)
    (a : D) (rate : ℚ) (h : n.lookup c = some rate) :
    Valuate ops n c a =
      { receiver := n, value := ops.NewFromFloat (ops.Float64 a * rate), err := none } := by
  unfold Valuate
  rw [h]

theorem Valuate_absent {D : Type} (ops : DecimalOps D) (n : NormalizedPrices) (c : Commodity)
    (a : D) (h : n.lookup c = none) :
    Valuate ops n c a =
      { receiver := n, value := ops.Zero, err := some (ValuateError.noPriceFound c n) } := by
  unfold Valuate
  rw [h]

/-! ## The claims -/

/-- C1 (reachability closure): for every graph, base and schedule of frontier
picks, `Normalize` returns, and a commodity `n` is a key of the result if and
only if there is a path of graph edges (possibly empty) from the base to `n`. -/
theorem C1_reachability_closure (G : Prices) (b n : Commodity) (sched : Nat → Nat) :
    ∃ r, Normalize G b sched = some r ∧ (n ∈ r ↔ ∃ l, IsPath G b l n) := by
  obtain ⟨r, hN, hmem, _, _⟩ := Normalize_spec G b sched
  exact ⟨r, hN, (hmem n).trans (reach_iff_path G b n)⟩

/-- C2 (base identity): for every graph, base and schedule of frontier picks,
`Normalize` returns a map that holds the base with rate exactly `1`. -/
theorem C2_base_identity (G : Prices) (b : Commodity) (sched : Nat → Nat) :
    ∃ r, Normalize G b sched = some r ∧ b ∈ r ∧ r.lookup b = some 1 := by
  obtain ⟨r, hN, _, hb, _⟩ := Normalize_spec G b sched
  exact ⟨r, hN, (mem_iff_lookup r b).mpr ⟨1, hb⟩, hb⟩

/-- C3, as stated, fails when commodity and target coincide: inserting the
observation `(0, 0, 2)` into the empty graph leaves `graph[0][0] = 1/2`, which
is not the rate `2`. -/
theorem C3_counterexample :
    0 < (2 : ℚ) ∧
    entry (Insert New { Commodity := 0, Target := 0, Price := 2 }) 0 0 = some (1 / 2) ∧
    entry (Insert New { Commodity := 0, Target := 0, Price := 2 }) 0 0 ≠ some 2 := by
  refine ⟨by norm_num, ?_, ?_⟩
  · rw [entry_Insert]
    simp
  · rw [entry_Insert]
    simp only [and_self, if_true, ne_eq, Option.some.injEq]
    norm_num

/-- C3 amended (insert symmetry): after inserting `(commodity, target, rate)`
with `rate > 0`, `graph[commodity][target] = 1/rate`, and, when commodity and
target differ, `graph[target][commodity] = rate`. -/
theorem C3_insert_symmetry (G : Prices) (pr : Price) (_hr : 0 < pr.Price) :
    entry (Insert G pr) pr.Commodity pr.Target = some (1 / pr.Price) ∧
    (pr.Commodity ≠ pr.Target → entry (Insert G pr) pr.Target pr.Commodity = some pr.Price) := by
  constructor
  · rw [entry_Insert]
    simp
  · intro hne
    rw [entry_Insert]
    simp [hne, Ne.symm hne]

/-- Witness for C3 amended: the observation `(0, 1, 2)` inserted into the
empty graph. -/
theorem C3_insert_symmetry_witness :
    entry (Insert New { Commodity := 0, Target := 1, Price := 2 }) 0 1 = some (1 / 2) ∧
    entry (Insert New { Commodity := 0, Target := 1, Price := 2 }) 1 0 = some 2 :=
  ⟨(C3_insert_symmetry New { Commodity := 0, Target := 1, Price := 2 } (by norm_num)).1,
   (C3_insert_symmetry New { Commodity := 0, Target := 1, Price := 2 } (by norm_num)).2
     (by decide)⟩

/-- C4, as stated, fails: for the graph of the single observation `(0, 1, 2)`
the commodity `0` is normalised to `2` for the base `1`, not to `1/2`, and the
commodity `1` is normalised to `1/2` for the base `0`, not to `2`. -/
theorem C4_counterexample :
    (∃ r, Normalize (Insert New { Commodity := 0, Target := 1, Price := 2 }) 1 (fun _ => 0)
        = some r ∧ r.lookup 0 ≠ some (1 / 2)) ∧
    (∃ r, Normalize (Insert New { Commodity := 0, Target := 1, Price := 2 }) 0 (fun _ => 0)
        = some r ∧ r.lookup 1 ≠ some 2) := by
  obtain ⟨⟨r1, hN1, h1⟩, ⟨r2, hN2, h2⟩⟩ :=
    Normalize_single 0 1 2 (by decide) (by norm_num) (fun _ => 0)
  refine ⟨⟨r1, hN1, ?_⟩, ⟨r2, hN2, ?_⟩⟩
  · rw [h1]
    norm_num
  · rw [h2]
    norm_num

/-- C4 amended (round trip of a single observation): for the graph built from
the empty graph by one Insert of `(c, t, r)` with `r > 0` and `c ≠ t`, and for
every schedule, `Normalize(G, t)[c] = r` and `Normalize(G, c)[t] = 1/r`. -/
theorem C4_single_observation (c t : Commodity) (r : ℚ) (hr : 0 < r) (hct : c ≠ t)
    (sched : Nat → Nat) :
    (∃ res, Normalize (Insert New { Commodity := c, Target := t, Price := r }) t sched = some res ∧
      res.lookup c = some r) ∧
    (∃ res, Normalize (Insert New { Commodity := c, Target := t, Price := r }) c sched = some res ∧
      res.lookup t = some (1 / r)) :=
  Normalize_single c t r hct (ne_of_gt hr) sched

/-- Witness for C4 amended: the observation `(0, 1, 2)`. -/
theorem C4_single_observation_witness :
    (∃ res, Normalize (Insert New { Commodity := 0, Target := 1, Price := 2 }) 1 (fun _ => 0)
        = some res ∧ res.lookup 0 = some 2) ∧
    (∃ res, Normalize (Insert New { Commodity := 0, Target := 1, Price := 2 }) 0 (fun _ => 0)
        = some res ∧ res.lookup 1 = some (1 / 2)) :=
  C4_single_observation 0 1 2 (by norm_num) (by decide) (fun _ => 0)

/-- C5, as stated, fails: with `usd = 0`, `eur = 1`, `gbp = 2` the normalised
rate of `eur` is `0.85` (not `1/0.85`), that of `usd` is `0.9 * 0.85` (not
`0.9 * (1/0.85)`), and 100 `usd` are valued at `76.5` (not `100 * 0.9 * (1/0.85)`). -/
theorem C5_counterexample :
    ∃ r, Normalize (Insert (Insert New { Commodity := 0, Target := 1, Price := 9 / 10 })
        { Commodity := 1, Target := 2, Price := 85 / 100 }) 2 (fun _ => 0) = some r ∧
      r.lookup 1 ≠ some (1 / (85 / 100)) ∧
      r.lookup 0 ≠ some (9 / 10 * (1 / (85 / 100))) ∧
      (Valuate exactDecimal r 0 100).value ≠ 100 * (9 / 10) * (1 / (85 / 100)) := by
  obtain ⟨r, hN, hres⟩ := Normalize_two_hops 0 1 2 (by decide) (by decide) (by decide) (fun _ => 0)
  refine ⟨r, hN, ?_, ?_, ?_⟩
  · rw [hres 1]
    norm_num
  · rw [hres 0]
    norm_num
  · rw [Valuate_present exactDecimal r 0 100 (9 / 10 * (85 / 100)) (by rw [hres 0]; norm_num)]
    simp only [exactDecimal, id]
    norm_num

/-- C5 amended (end-to-end example): for pairwise distinct `usd`, `eur`, `gbp`
and the graph obtained from `New()` by inserting `(usd, eur, 0.9)` and then
`(eur, gbp, 0.85)`, for every schedule `Normalize(graph, gbp)` is exactly
`{gbp: 1, eur: 0.85, usd: 0.9 * 0.85}`, and `Valuate` of the amount 100 in `usd`
succeeds with `100 * 0.9 * 0.85`. -/
theorem C5_end_to_end (usd eur gbp : Commodity) (h1 : usd ≠ eur) (h2 : eur ≠ gbp)
    (h3 : usd ≠ gbp) (sched : Nat → Nat) :
    ∃ r, Normalize (Insert (Insert New { Commodity := usd, Target := eur, Price := 9 / 10 })
          { Commodity := eur, Target := gbp, Price := 85 / 100 }) gbp sched = some r ∧
      (∀ k, r.lookup k =
        if k = gbp then some 1 else if k = eur then some (85 / 100)
        else if k = usd then some (9 / 10 * (85 / 100)) else none) ∧
      (Valuate exactDecimal r usd 100).err = none ∧
      (Valuate exactDecimal r usd 100).value = 100 * (9 / 10) * (85 / 100) := by
  obtain ⟨r, hN, hres⟩ := Normalize_two_hops usd eur gbp h1 h2 h3 sched
  have husd : r.lookup usd = some (9 / 10 * (85 / 100)) := by
    rw [hres usd]
    simp [h1, h3]
  refine ⟨r, hN, hres, ?_, ?_⟩
  · rw [Valuate_present exactDecimal r usd 100 _ husd]
  · rw [Valuate_present exactDecimal r usd 100 _ husd]
    simp only [exactDecimal, id]
    norm_num

/-- Witness for C5 amended: `usd = 0`, `eur = 1`, `gbp = 2`. -/
theorem C5_end_to_end_witness :
    ∃ r, Normalize (Insert (Insert New { Commodity := 0, Target := 1, Price := 9 / 10 })
          { Commodity := 1, Target := 2, Price := 85 / 100 }) 2 (fun _ => 0) = some r ∧
      (∀ k, r.lookup k =
        if k = 2 then some 1 else if k = 1 then some (85 / 100)
        else if k = 0 then some (9 / 10 * (85 / 100)) else none) ∧
      (Valuate exactDecimal r 0 100).err = none ∧
      (Valuate exactDecimal r 0 100).value = 100 * (9 / 10) * (85 / 100) :=
  C5_end_to_end 0 1 2 (by decide) (by decide) (by decide) (fun _ => 0)

/-- C6 (composition along a simple path): for pairwise distinct `b`, `x`, `n`
and a graph with `G[b] = {x: w1}`, `G[x] = {b: 1/w1, n: w2}`, `G[n] = {x: 1/w2}`
and `w1, w2 > 0`, for every schedule `Normalize(G, b)[x] = w1` and
`Normalize(G, b)[n] = w1 * w2`. -/
theorem C6_composition (G : Prices) (b x n : Commodity) (w1 w2 : ℚ)
    (hbx : b ≠ x) (hxn : x ≠ n) (hbn : b ≠ n) (hw1 : 0 < w1) (hw2 : 0 < w2)
    (hGb : ∀ k, entry G b k = if k = x then some w1 else none)
    (hGx : ∀ k, entry G x k = if k = b then some (1 / w1) else if k = n then some w2 else none)
    (hGn : ∀ k, entry G n k = if k = x then some (1 / w2) else none)
    (sched : Nat → Nat) :
    ∃ r, Normalize G b sched = some r ∧ r.lookup x = some w1 ∧ r.lookup n = some (w1 * w2) := by
  have hw1' : w1 ≠ 0 := ne_of_gt hw1
  have hw2' : w2 ≠ 0 := ne_of_gt hw2
  have e1 : hasEdge G b x := by
    rw [hasEdge_iff, hGb]
    exact ⟨w1, by simp⟩
  have e2 : hasEdge G x n := by
    rw [hasEdge_iff, hGx]
    exact ⟨w2, by simp [Ne.symm hbn]⟩
  obtain ⟨r, hN, hres⟩ := Normalize_of_valuation G b sched {b, x, n}
    (fun k => if k = b then 1 else if k = x then w1 else w1 * w2) (by simp) (by simp)
    (by
      intro a k w ha hw
      simp only [Finset.mem_insert, Finset.mem_singleton] at ha ⊢
      rcases ha with ha | ha | ha
      · rw [ha, hGb] at hw
        split_ifs at hw with c1
        rw [Option.some.injEq] at hw
        simp [ha, c1, Ne.symm hbx, ← hw]
      · rw [ha, hGx] at hw
        split_ifs at hw with c1 c2
        · rw [Option.some.injEq] at hw
          simp [ha, c1, Ne.symm hbx, ← hw, hw1']
        · rw [Option.some.injEq] at hw
          simp [ha, c2, Ne.symm hbx, Ne.symm hbn, Ne.symm hxn, ← hw, mul_comm]
      · rw [ha, hGn] at hw
        split_ifs at hw with c1
        rw [Option.some.injEq] at hw
        simp only [ha, c1, Ne.symm hbx, Ne.symm hbn, Ne.symm hxn, if_true, if_false, true_or,
          or_true, true_and, ← hw]
        field_simp)
    (by
      intro k hk
      simp only [Finset.mem_insert, Finset.mem_singleton] at hk
      rcases hk with hk | hk | hk
      · rw [hk]
      · rw [hk]; exact Relation.ReflTransGen.single e1
      · rw [hk]; exact Relation.ReflTransGen.tail (Relation.ReflTransGen.single e1) e2)
  refine ⟨r, hN, ?_, ?_⟩
  · rw [hres x]
    simp [Ne.symm hbx]
  · rw [hres n]
    simp [Ne.symm hbn, Ne.symm hxn]

/-- Witness for C6: `b = 0`, `x = 1`, `n = 2`, `w1 = 2`, `w2 = 3`, on the graph
built by inserting `(1, 0, 2)` and `(2, 1, 3)`. -/
theorem C6_composition_witness :
    ∃ r, Normalize (Insert (Insert New { Commodity := 1, Target := 0, Price := 2 })
        { Commodity := 2, Target := 1, Price := 3 }) 0 (fun _ => 0) = some r ∧
      r.lookup 1 = some 2 ∧ r.lookup 2 = some (2 * 3) :=
  C6_composition (Insert (Insert New { Commodity := 1, Target := 0, Price := 2 })
      { Commodity := 2, Target := 1, Price := 3 }) 0 1 2 2 3
    (by decide) (by decide) (by decide) (by norm_num) (by norm_num)
    (by
      intro k
      rw [entry_Insert, entry_Insert, entry_New]
      by_cases hk : k = 1 <;> simp [hk])
    (by
      intro k
      rw [entry_Insert, entry_Insert, entry_New]
      by_cases h0 : k = 0
      · simp [h0]
      · by_cases h2 : k = 2 <;> simp [h0, h2])
    (by
      intro k
      rw [entry_Insert, entry_Insert, entry_New]
      by_cases hk : k = 1 <;> simp [hk])
    (fun _ => 0)

/-- C7 (Valuate fails exactly when the price is missing): `Valuate` returns the
no-price-found error if and only if `c` is not a key of the set, the returned
value is then the zero decimal, and when `c` is a key no error is returned. -/
theorem C7_valuate_error {D : Type} (ops : DecimalOps D) (S : NormalizedPrices) (c : Commodity)
    (a : D) :
    ((Valuate ops S c a).err = some (ValuateError.noPriceFound c S) ↔ c ∉ S) ∧
    ((Valuate ops S c a).err = some (ValuateError.noPriceFound c S) →
      (Valuate ops S c a).value = ops.Zero) ∧
    (c ∈ S ↔ (Valuate ops S c a).err = none) := by
  cases h : S.lookup c with
  | none =>
    have hc : c ∉ S := AList.lookup_eq_none.mp h
    rw [Valuate_absent ops S c a h]
    simp [hc]
  | some rate =>
    have hc : c ∈ S := (mem_iff_lookup S c).mpr ⟨rate, h⟩
    rw [Valuate_present ops S c a rate h]
    simp [hc]

/-- C8 (Valuate result): when `c` is in the set with rate `S[c]`, `Valuate`
returns the product of the amount converted to the type of the rates and the
rate, converted back to a decimal, returns no error and leaves the set as it
was. -/
theorem C8_valuate_result {D : Type} (ops : DecimalOps D) (S : NormalizedPrices) (c : Commodity)
    (a : D) (rate : ℚ) (h : S.lookup c = some rate) :
    (Valuate ops S c a).value = ops.NewFromFloat (ops.Float64 a * rate) ∧
    (Valuate ops S c a).err = none ∧
    (Valuate ops S c a).receiver = S := by
  rw [Valuate_present ops S c a rate h]
  exact ⟨rfl, rfl, rfl⟩

/-- Witness for C8: the amount `4` of commodity `0` at the rate `3/2`, in exact
arithmetic. -/
theorem C8_valuate_result_witness :
    (AList.singleton 0 (3 / 2) : NormalizedPrices).lookup 0 = some (3 / 2) ∧
    (Valuate exactDecimal (AList.singleton 0 (3 / 2)) 0 4).value
      = exactDecimal.NewFromFloat (exactDecimal.Float64 4 * (3 / 2)) ∧
    (Valuate exactDecimal (AList.singleton 0 (3 / 2)) 0 4).err = none ∧
    (Valuate exactDecimal (AList.singleton 0 (3 / 2)) 0 4).receiver = AList.singleton 0 (3 / 2) :=
  ⟨by rw [lookup_singleton, if_pos rfl],
   C8_valuate_result exactDecimal (AList.singleton 0 (3 / 2)) 0 4 (3 / 2)
     (by rw [lookup_singleton, if_pos rfl])⟩

/-- C9, as stated, fails for the base itself: in the empty graph the commodity
`0` is neither an outer nor an inner key, yet `Valuate` against
`Normalize(G, 0)` succeeds for it. -/
theorem C9_counterexample :
    New.lookup 0 = none ∧ (∀ a, entry New a 0 = none) ∧
    ∃ r, Normalize New 0 (fun _ => 0) = some r ∧
      (Valuate exactDecimal r 0 5).err = none ∧ (Valuate exactDecimal r 0 5).value = 5 := by
  obtain ⟨r, hN, _, hb, _⟩ := Normalize_spec New 0 (fun _ => 0)
  refine ⟨rfl, fun a => entry_New a 0, r, hN, ?_, ?_⟩
  · rw [Valuate_present exactDecimal r 0 5 1 hb]
  · rw [Valuate_present exactDecimal r 0 5 1 hb]
    simp [exactDecimal]

/-- C9 amended (unreachable valuation fails): for every graph, base `b`,
amount and schedule, and every commodity `c` other than `b` that is neither an
outer nor an inner key of the graph, `Valuate` against `Normalize(G, b)` returns
the no-price-found failure with the zero decimal. -/
theorem C9_absent_fails {D : Type} (ops : DecimalOps D) (G : Prices) (b c : Commodity) (a : D)
    (sched : Nat → Nat) (hcb : c ≠ b) (_houter : G.lookup c = none)
    (hinner : ∀ t, entry G t c = none) :
    ∃ r, Normalize G b sched = some r ∧
      (Valuate ops r c a).err = some (ValuateError.noPriceFound c r) ∧
      (Valuate ops r c a).value = ops.Zero := by
  obtain ⟨r, hN, hmem, _, _⟩ := Normalize_spec G b sched
  have hc : r.lookup c = none := by
    rw [AList.lookup_eq_none, hmem c]
    intro hreach
    cases hreach with
    | refl => exact hcb rfl
    | tail _ hedge =>
      rw [hasEdge_iff, hinner] at hedge
      obtain ⟨w, hw⟩ := hedge
      exact absurd hw (by simp)
  refine ⟨r, hN, ?_, ?_⟩
  · rw [Valuate_absent ops r c a hc]
  · rw [Valuate_absent ops r c a hc]

/-- Witness for C9 amended: the commodity `7` against the graph of the single
observation `(0, 1, 2)`, normalised for the base `1`. -/
theorem C9_absent_fails_witness :
    ∃ r, Normalize (Insert New { Commodity := 0, Target := 1, Price := 2 }) 1 (fun _ => 0)
        = some r ∧
      (Valuate exactDecimal r 7 5).err = some (ValuateError.noPriceFound 7 r) ∧
      (Valuate exactDecimal r 7 5).value = exactDecimal.Zero :=
  C9_absent_fails exactDecimal (Insert New { Commodity := 0, Target := 1, Price := 2 }) 1 7 5
    (fun _ => 0) (by decide) (by decide)
    (by
      intro t
      rw [entry_Insert, entry_New]
      simp)

/-- C10 (Copy preserves content): for all commodities `t` and `c` the entry
`[t][c]` is present in `G.Copy()` if and only if it is present in `G`, and with
the same rate. -/
theorem C10_copy_content (G : Prices) (t c : Commodity) :
    entry (Copy G) t c = entry G t c :=
  entry_Copy G t c

/-! ## Sequences of insertions -/

theorem InsertAll_append (obs : List Price) (o : Price) :
    InsertAll (obs ++ [o]) = Insert (InsertAll obs) o := by
  unfold InsertAll
  rw [List.foldl_append]
  rfl

/-- A property of graphs that holds of the empty graph and that every admitted
insertion preserves holds of every graph built from admitted observations. -/
theorem InsertAll_induct (Ok : Price → Prop) (P : Prices → Prop) (h0 : P New)
    (hstep : ∀ G o, Ok o → P G → P (Insert G o)) :
    ∀ obs : List Price, (∀ o, o ∈ obs → Ok o) → P (InsertAll obs) := by
  intro obs
  induction obs using List.reverseRecOn with
  | nil => intro _; exact h0
  | append_singleton obs o ih =>
    intro hall
    rw [InsertAll_append]
    exact hstep _ o (hall o (by simp)) (ih (fun x hx => hall x (by simp [hx])))

theorem Insert_symmetric (G : Prices) (o : Price)
    (hne : o.Commodity ≠ o.Target)
    (hG : ∀ a b w, entry G a b = some w → entry G b a = some (1 / w)) :
    ∀ a b w, entry (Insert G o) a b = some w → entry (Insert G o) b a = some (1 / w) := by
  intro a b w hw
  rw [entry_Insert] at hw ⊢
  by_cases h1 : a = o.Commodity ∧ b = o.Target
  · rw [if_pos h1, Option.some.injEq] at hw
    have h1' : ¬(b = o.Commodity ∧ a = o.Target) := fun h => hne (h1.1.symm.trans h.2)
    rw [if_neg h1', if_pos ⟨h1.2, h1.1⟩, ← hw]
    simp
  · rw [if_neg h1] at hw
    by_cases h2 : a = o.Target ∧ b = o.Commodity
    · rw [if_pos h2, Option.some.injEq] at hw
      rw [if_pos ⟨h2.2, h2.1⟩, ← hw]
    · rw [if_neg h2] at hw
      rw [if_neg (fun h => h2 ⟨h.2, h.1⟩), if_neg (fun h => h1 ⟨h.2, h.1⟩)]
      exact hG a b w hw

theorem InsertAll_symmetric (obs : List Price)
    (hobs : ∀ o, o ∈ obs → 0 < o.Price ∧ o.Commodity ≠ o.Target) :
    ∀ a b w, entry (InsertAll obs) a b = some w → entry (InsertAll obs) b a = some (1 / w) :=
  InsertAll_induct (fun o => 0 < o.Price ∧ o.Commodity ≠ o.Target)
    (fun G => ∀ a b w, entry G a b = some w → entry G b a = some (1 / w))
    (by intro a b w h; rw [entry_New] at h; exact absurd h (by simp))
    (fun G o hok hG => Insert_symmetric G o hok.2 hG) obs hobs

theorem InsertAll_positive (obs : List Price) (hobs : ∀ o, o ∈ obs → 0 < o.Price) :
    ∀ a b w, entry (InsertAll obs) a b = some w → 0 < w :=
  InsertAll_induct (fun o => 0 < o.Price) (fun G => ∀ a b w, entry G a b = some w → 0 < w)
    (by intro a b w h; rw [entry_New] at h; exact absurd h (by simp))
    (by
      intro G o hok hG a b w hw
      rw [entry_Insert] at hw
      split_ifs at hw with h1 h2
      · rw [Option.some.injEq] at hw
        rw [← hw]
        exact one_div_pos.mpr hok
      · rw [Option.some.injEq] at hw
        rw [← hw]
        exact hok
      · exact hG a b w hw) obs hobs

/-- Every rate returned by `Normalize` is positive when every stored rate is. -/
theorem Normalize_positive (p : Prices) (b : Commodity) (sched : Nat → Nat)
    (hp : ∀ a n w, entry p a n = some w → 0 < w) :
    ∃ r, Normalize p b sched = some r ∧ ∀ k v, r.lookup k = some v → 0 < v := by
  obtain ⟨r, hN, _, _, hrate⟩ := Normalize_spec p b sched
  refine ⟨r, hN, fun k v h => ?_⟩
  exact PathRate_good p b (fun _ v => 0 < v) (by norm_num)
    (fun a n v w hv hw => mul_pos (hp a n w hw) hv) k v (hrate k v h)

theorem mem_addPrice (p : Prices) (t c : Commodity) (v : ℚ) (a : Commodity) :
    a ∈ addPrice p t c v ↔ a = t ∨ a ∈ p := by
  unfold addPrice
  cases p.lookup t <;> exact AList.mem_insert p

theorem mem_Insert (p : Prices) (o : Price) (a : Commodity) :
    a ∈ Insert p o ↔ a = o.Commodity ∨ a = o.Target ∨ a ∈ p := by
  unfold Insert
  rw [mem_addPrice, mem_addPrice]

/-! ## Paths and their products -/

theorem pathProduct_chain (p : Prices) :
    ∀ (l : List Commodity) (a : Commodity) (v : ℚ),
      pathProduct p a l = some v → List.Chain (hasEdge p) a l := by
  intro l
  induction l with
  | nil => intro a v _; exact List.Chain.nil
  | cons x rest ih =>
    intro a v h
    unfold pathProduct at h
    cases hw : entry p a x with
    | none => rw [hw] at h; exact absurd h (by simp)
    | some w =>
      cases hv : pathProduct p x rest with
      | none => rw [hw, hv] at h; exact absurd h (by simp)
      | some v0 =>
        exact List.Chain.cons ((hasEdge_iff p a x).mpr ⟨w, hw⟩) (ih x v0 hv)

theorem pathProduct_snoc (p : Prices) (n : Commodity) (w : ℚ) :
    ∀ (l : List Commodity) (a : Commodity) (v : ℚ),
      pathProduct p a l = some v →
      entry p ((a :: l).getLast (List.cons_ne_nil a l)) n = some w →
      pathProduct p a (l ++ [n]) = some (w * v) := by
  intro l
  induction l with
  | nil =>
    intro a v h hw
    simp only [pathProduct, Option.some.injEq] at h
    simp only [List.getLast_singleton] at hw
    simp [pathProduct, hw, ← h]
  | cons x rest ih =>
    intro a v h hw
    unfold pathProduct at h
    cases hw0 : entry p a x with
    | none => rw [hw0] at h; exact absurd h (by simp)
    | some w0 =>
      cases hv0 : pathProduct p x rest with
      | none => rw [hw0, hv0] at h; exact absurd h (by simp)
      | some v0 =>
        rw [hw0, hv0] at h
        simp only [Option.some.injEq] at h
        rw [List.getLast_cons (List.cons_ne_nil x rest)] at hw
        have hrec := ih x v0 hv0 hw
        rw [List.cons_append]
        unfold pathProduct
        rw [hw0, hrec, ← h]
        simp only [Option.some.injEq]
        ring

/-- A composed rate is the product of the edge weights along a path from the
base. -/
theorem PathRate_path (p : Prices) (b n : Commodity) (v : ℚ) (h : PathRate p b n v) :
    ∃ l, IsPath p b l n ∧ pathProduct p b l = some v := by
  induction h with
  | base => exact ⟨[], ⟨List.Chain.nil, rfl⟩, rfl⟩
  | step a n v w _ hw ih =>
    obtain ⟨l, hpath, hprod⟩ := ih
    have hlast : entry p ((b :: l).getLast (List.cons_ne_nil b l)) n = some w := by
      rw [hpath.2]; exact hw
    have hprod' := pathProduct_snoc p n w l b v hprod hlast
    refine ⟨l ++ [n], ⟨pathProduct_chain p _ b _ hprod', ?_⟩, hprod'⟩
    simp

/-- The value of every returned rate on a graph that agrees with a valuation
`val` without zeros: every entry `G[a][c]` is `val c / val a`. -/
theorem Normalize_consistent (p : Prices) (val : Commodity → ℚ) (hval : ∀ c, val c ≠ 0)
    (hp : ∀ a c w, entry p a c = some w → w = val c / val a) (b : Commodity)
    (sched : Nat → Nat) :
    ∃ r, Normalize p b sched = some r ∧
      ∀ n, (Relation.ReflTransGen (hasEdge p) b n → r.lookup n = some (val n / val b)) ∧
        (¬Relation.ReflTransGen (hasEdge p) b n → r.lookup n = none) := by
  obtain ⟨r, hN, hmem, _, hrate⟩ := Normalize_spec p b sched
  refine ⟨r, hN, fun n => ⟨fun hreach => ?_, fun hreach => ?_⟩⟩
  · obtain ⟨v, hv⟩ := (mem_iff_lookup r n).mp ((hmem n).mpr hreach)
    rw [hv]
    have := PathRate_good p b (fun k v => v = val k / val b) (div_self (hval b)).symm
      (by
        intro a k v w hv hw
        rw [hp a k w hw, hv]
        field_simp [hval a, hval b]) n v (hrate n v hv)
    rw [this]
  · exact AList.lookup_eq_none.mpr (fun h => hreach ((hmem n).mp h))

/-! ## The number of iterations -/

theorem loopBody_done_length (p : Prices) (b : Commodity) (st : LoopState)
    (cur : Sigma (fun _ : Commodity => ℚ)) (hI : Inv p b st) (hcur : cur ∈ st.todo.entries) :
    (loopBody p st cur).done.entries.length = st.done.entries.length + 1 := by
  have hnot : cur.1 ∉ st.done := hI.disjoint _ (mem_entries_mem _ _ hcur)
  show (st.done.insert cur.1 cur.2).entries.length = _
  rw [AList.insert_entries_of_neg hnot, List.length_cons]

/-- The loop is left after as many iterations as there are keys in the
result, and these keys are the commodities reachable from the base. -/
theorem Normalize_iterations (p : Prices) (b : Commodity) (sched : Nat → Nat) :
    ∃ r iters, normalizeLoop p sched ((innerKeys p).length + 1) 0
          { todo := AList.singleton b 1, done := ∅ } = some (r, iters) ∧
      Normalize p b sched = some r ∧
      (∀ n, n ∈ r ↔ Relation.ReflTransGen (hasEdge p) b n) ∧
      iters = r.keys.toFinset.card := by
  obtain ⟨st, iters, hloop, hN, hempty, hI, hJ⟩ := Normalize_induct p b sched
    (fun i st => i = st.done.entries.length) rfl
    (by
      intro i st cur hI hJ hcur
      rw [loopBody_done_length p b st cur hI hcur, hJ])
  refine ⟨st.done, iters, hloop, hN, Inv_final p b st hI hempty, ?_⟩
  rw [List.toFinset_card_of_nodup st.done.keys_nodup, hJ]
  simp [AList.keys, List.keys]

/-! ## The run of the loop, iteration by iteration -/

theorem pickAt_mem (sched : Nat → Nat) (i : Nat) (st : LoopState)
    (cur : Sigma (fun _ : Commodity => ℚ)) (h : pickAt sched i st = some cur) :
    cur ∈ st.todo.entries :=
  List.get?_mem h

theorem stateAt_succ (p : Prices) (b : Commodity) (sched : Nat → Nat) (i : Nat)
    (st' : LoopState) (h : stateAt p b sched (i + 1) = some st') :
    ∃ st cur, stateAt p b sched i = some st ∧ pickAt sched i st = some cur ∧
      st' = loopBody p st cur := by
  unfold stateAt at h
  cases hst : stateAt p b sched i with
  | none => simp [hst] at h
  | some st =>
    cases hp : pickAt sched i st with
    | none => simp [hst, hp] at h
    | some cur =>
      simp only [hst, hp, Option.some.injEq] at h
      exact ⟨st, cur, rfl, hp, h.symm⟩

theorem stateAt_step (p : Prices) (b : Commodity) (sched : Nat → Nat) (i : Nat)
    (st : LoopState) (cur : Sigma (fun _ : Commodity => ℚ))
    (hst : stateAt p b sched i = some st) (hp : pickAt sched i st = some cur) :
    stateAt p b sched (i + 1) = some (loopBody p st cur) := by
  rw [stateAt]
  simp only [hst, hp]

theorem stateAt_Inv (p : Prices) (b : Commodity) (sched : Nat → Nat) :
    ∀ (i : Nat) (st : LoopState), stateAt p b sched i = some st → Inv p b st := by
  intro i
  induction i with
  | zero =>
    intro st h
    simp only [stateAt, Option.some.injEq] at h
    rw [← h]
    exact Inv_init p b
  | succ i ih =>
    intro st' h
    obtain ⟨st, cur, hst, hp, heq⟩ := stateAt_succ p b sched i st' h
    rw [heq]
    exact Inv_step p b st cur (ih st hst) (pickAt_mem sched i st cur hp)

/-- The state in which `normalizeLoop` is left is one of the states of the run. -/
theorem normalizeLoop_stateAt (p : Prices) (b : Commodity) (sched : Nat → Nat) :
    ∀ (fuel iter : Nat) (st : LoopState) (r : NormalizedPrices × Nat),
      stateAt p b sched iter = some st → normalizeLoop p sched fuel iter st = some r →
      ∃ st', stateAt p b sched r.2 = some st' ∧ st'.todo.entries = [] ∧ r.1 = st'.done := by
  intro fuel
  induction fuel with
  | zero =>
    intro iter st r h0 hr
    unfold normalizeLoop at hr
    by_cases h : 0 < st.todo.entries.length
    · simp [h] at hr
    · simp only [h, if_false, Option.some.injEq] at hr
      subst hr
      exact ⟨st, h0, List.length_eq_zero.mp (Nat.eq_zero_of_not_pos h), rfl⟩
  | succ fuel ih =>
    intro iter st r h0 hr
    unfold normalizeLoop at hr
    by_cases h : 0 < st.todo.entries.length
    · simp only [h, dite_true] at hr
      have hp : pickAt sched iter st = some (st.todo.entries.get
          ⟨sched iter % st.todo.entries.length, Nat.mod_lt _ h⟩) := by
        unfold pickAt
        exact List.get?_eq_get _
      exact ih _ _ r (stateAt_step p b sched iter st _ h0 hp) hr
    · simp only [h, dite_false, Option.some.injEq] at hr
      subst hr
      exact ⟨st, h0, List.length_eq_zero.mp (Nat.eq_zero_of_not_pos h), rfl⟩

/-- A rate of the settled set was the frontier value of its commodity in the
iteration that picked it. -/
theorem stateAt_done_picked (p : Prices) (b : Commodity) (sched : Nat → Nat) :
    ∀ (n : Nat) (st : LoopState), stateAt p b sched n = some st →
      ∀ k v, st.done.lookup k = some v →
        ∃ i sti, i < n ∧ stateAt p b sched i = some sti ∧
          pickAt sched i sti = some ⟨k, v⟩ ∧ sti.todo.lookup k = some v := by
  intro n
  induction n with
  | zero =>
    intro st h k v hkv
    simp only [stateAt, Option.some.injEq] at h
    rw [← h] at hkv
    simp at hkv
  | succ n ih =>
    intro st' h k v hkv
    obtain ⟨st, cur, hst, hp, heq⟩ := stateAt_succ p b sched n st' h
    rw [heq, loopBody_done] at hkv
    by_cases hk : k = cur.1
    · rw [if_pos hk, Option.some.injEq] at hkv
      have hcur : cur = ⟨k, v⟩ := by
        rw [hk, ← hkv]
      rw [hcur] at hp
      exact ⟨n, st, Nat.lt_succ_self n, hst, hp,
        mem_entries_lookup st.todo ⟨k, v⟩ (pickAt_mem sched n st _ hp)⟩
    · rw [if_neg hk] at hkv
      obtain ⟨i, sti, hi, h1, h2, h3⟩ := ih st hst k v hkv
      exact ⟨i, sti, Nat.lt_succ_of_lt hi, h1, h2, h3⟩

/-- From the iteration that settles it on, a commodity keeps its rate and
stays out of the frontier. -/
theorem stateAt_done_stable (p : Prices) (b : Commodity) (sched : Nat → Nat)
    (i : Nat) (st : LoopState) (hst : stateAt p b sched i = some st) (k : Commodity) (v : ℚ)
    (hkv : st.done.lookup k = some v) :
    ∀ (j : Nat) (st' : LoopState), i ≤ j → stateAt p b sched j = some st' →
      st'.done.lookup k = some v ∧ k ∉ st'.todo := by
  have key : ∀ (j : Nat), i ≤ j → ∀ st' : LoopState, stateAt p b sched j = some st' →
      st'.done.lookup k = some v := by
    intro j hij
    induction j, hij using Nat.le_induction with
    | base =>
      intro st' h
      rw [hst, Option.some.injEq] at h
      rw [← h]
      exact hkv
    | succ j _ ih =>
      intro st'' h
      obtain ⟨st', cur, hst', hp, heq⟩ := stateAt_succ p b sched j st'' h
      rw [heq]
      exact loopBody_done_stable p b st' cur (stateAt_Inv p b sched j st' hst')
        (pickAt_mem sched j st' cur hp) k v (ih st' hst')
  intro j st' hij hst'
  have hd := key j hij st' hst'
  refine ⟨hd, fun hmem => ?_⟩
  exact (stateAt_Inv p b sched j st' hst').disjoint k hmem ((mem_iff_lookup _ _).mpr ⟨v, hd⟩)

/-- `Normalize` returns the settled set of the state of the run whose frontier
is empty. -/
theorem Normalize_stateAt (p : Prices) (b : Commodity) (sched : Nat → Nat) :
    ∃ n st, Normalize p b sched = some st.done ∧ stateAt p b sched n = some st ∧
      st.todo.entries = [] := by
  obtain ⟨r, hr⟩ := normalizeLoop_total p sched b ((innerKeys p).length + 1) 0
    { todo := AList.singleton b 1, done := ∅ } (Inv_init p b) (unsettled_init_le p b)
  obtain ⟨st, hst, hempty, hdone⟩ := normalizeLoop_stateAt p b sched _ 0 _ r rfl hr
  refine ⟨r.2, st, ?_, hst, hempty⟩
  unfold Normalize
  rw [hr, ← hdone]
  rfl

/-! ## Graphs on the heap -/

theorem Separate_symm (h : Heap) (g g2 : Nat) (hs : Separate h g g2) : Separate h g2 g :=
  ⟨fun e => hs.1 e.symm, hs.2.2.1, hs.2.1, fun t t2 a h1 h2 => hs.2.2.2 t2 t a h2 h1⟩

/-- Writing a price into one of two separate graphs keeps them separate and
leaves every entry of the other one as it was. -/
theorem heapAddPrice_frame (h : Heap) (g g2 : Nat) (hs : Separate h g g2)
    (t c : Commodity) (v : ℚ) :
    Separate (heapAddPrice h g t c v) g g2 ∧
    ∀ t2 k, heapEntry (heapAddPrice h g t c v) g2 t2 k = heapEntry h g2 t2 k := by
  obtain ⟨hne, hg, hg2, hdisj⟩ := hs
  unfold heapAddPrice
  cases hl : (h.outers g).lookup t with
  | some a =>
    refine ⟨⟨hne, hg, hg2, hdisj⟩, ?_⟩
    intro t2 k
    unfold heapEntry
    simp only
    cases hl2 : (h.outers g2).lookup t2 with
    | none => rfl
    | some a2 =>
      have hne2 : a2 ≠ a := fun e => hdisj t t2 a hl (by rw [hl2, e])
      simp only [Option.some_bind, Function.update_noteq hne2]
  | none =>
    have hout2 : Function.update h.outers g ((h.outers g).insert t h.nextInner) g2
        = h.outers g2 := Function.update_noteq (fun e => hne e.symm) _ _
    refine ⟨⟨hne, ?_, ?_, ?_⟩, ?_⟩
    · intro t1 a ha
      simp only [Function.update_same] at ha
      show a < h.nextInner + 1
      by_cases ht : t1 = t
      · rw [ht, AList.lookup_insert, Option.some.injEq] at ha
        omega
      · rw [AList.lookup_insert_ne ht] at ha
        exact Nat.lt_succ_of_lt (hg t1 a ha)
    · intro t1 a ha
      simp only [hout2] at ha
      exact Nat.lt_succ_of_lt (hg2 t1 a ha)
    · intro t1 t2 a ha ha2
      simp only [Function.update_same] at ha
      simp only [hout2] at ha2
      by_cases ht : t1 = t
      · rw [ht, AList.lookup_insert, Option.some.injEq] at ha
        have := hg2 t2 a ha2
        omega
      · rw [AList.lookup_insert_ne ht] at ha
        exact hdisj t1 t2 a ha ha2
    · intro t2 k
      unfold heapEntry
      simp only [hout2]
      cases hl2 : (h.outers g2).lookup t2 with
      | none => rfl
      | some a2 =>
        have hne2 : a2 ≠ h.nextInner := Nat.ne_of_lt (hg2 t2 a2 hl2)
        simp only [Option.some_bind, Function.update_noteq hne2]

theorem heapInsert_frame (h : Heap) (g g2 : Nat) (hs : Separate h g g2) (o : Price) :
    Separate (heapInsert h g o) g g2 ∧
    ∀ t k, heapEntry (heapInsert h g o) g2 t k = heapEntry h g2 t k := by
  unfold heapInsert
  obtain ⟨hs1, he1⟩ := heapAddPrice_frame h g g2 hs o.Target o.Commodity o.Price
  obtain ⟨hs2, he2⟩ := heapAddPrice_frame _ g g2 hs1 o.Commodity o.Target (1 / o.Price)
  exact ⟨hs2, fun t k => (he2 t k).trans (he1 t k)⟩

theorem copyInner_separate (c g : Nat) (t : Commodity) :
    ∀ (xs : List (Sigma (fun _ : Commodity => ℚ))) (hh : Heap), Separate hh c g →
      Separate (xs.foldl (fun hh' x => heapAddPrice hh' c t x.1 x.2) hh) c g ∧
      ∀ t2 k, heapEntry (xs.foldl (fun hh' x => heapAddPrice hh' c t x.1 x.2) hh) g t2 k
        = heapEntry hh g t2 k := by
  intro xs
  induction xs with
  | nil => intro hh hs; exact ⟨hs, fun _ _ => rfl⟩
  | cons x rest ih =>
    intro hh hs
    rw [List.foldl_cons]
    obtain ⟨hs1, he1⟩ := heapAddPrice_frame hh c g hs t x.1 x.2
    obtain ⟨hs2, he2⟩ := ih _ hs1
    exact ⟨hs2, fun t2 k => (he2 t2 k).trans (he1 t2 k)⟩

theorem copyOuter_separate (c g : Nat) :
    ∀ (es : List (Sigma (fun _ : Commodity => Nat))) (hh : Heap), Separate hh c g →
      Separate (es.foldl (fun hh e => (hh.inners e.2).entries.foldl
        (fun hh' x => heapAddPrice hh' c e.1 x.1 x.2) hh) hh) c g ∧
      ∀ t2 k, heapEntry (es.foldl (fun hh e => (hh.inners e.2).entries.foldl
        (fun hh' x => heapAddPrice hh' c e.1 x.1 x.2) hh) hh) g t2 k = heapEntry hh g t2 k := by
  intro es
  induction es with
  | nil => intro hh hs; exact ⟨hs, fun _ _ => rfl⟩
  | cons e rest ih =>
    intro hh hs
    rw [List.foldl_cons]
    obtain ⟨hs1, he1⟩ := copyInner_separate c g e.1 (hh.inners e.2).entries hh hs
    obtain ⟨hs2, he2⟩ := ih _ hs1
    exact ⟨hs2, fun t2 k => (he2 t2 k).trans (he1 t2 k)⟩

theorem heapNew_separate (h : Heap) (g : Nat) (hv : heapValid h g) :
    Separate (heapNew h).1 (heapNew h).2 g ∧
    ∀ t k, heapEntry (heapNew h).1 g t k = heapEntry h g t k := by
  have hne : g ≠ h.nextOuter := Nat.ne_of_lt hv.1
  have hout : Function.update h.outers h.nextOuter ∅ g = h.outers g :=
    Function.update_noteq hne _ _
  unfold heapNew
  refine ⟨⟨fun e => hne e.symm, ?_, ?_, ?_⟩, ?_⟩
  · intro t a ha
    simp only [Function.update_same, AList.lookup_empty] at ha
    exact absurd ha (by simp)
  · intro t a ha
    simp only [hout] at ha
    exact hv.2 t a ha
  · intro t t2 a ha
    simp only [Function.update_same, AList.lookup_empty] at ha
    exact absurd ha (by simp)
  · intro t k
    unfold heapEntry
    simp only [hout]

/-- After `Copy` the original and the copy are separate, and the original has
the entries it had before. -/
theorem heapCopy_separate (h : Heap) (g : Nat) (hv : heapValid h g) :
    Separate (heapCopy h g).1 (heapCopy h g).2 g ∧
    ∀ t k, heapEntry (heapCopy h g).1 g t k = heapEntry h g t k := by
  obtain ⟨hs0, he0⟩ := heapNew_separate h g hv
  obtain ⟨hs1, he1⟩ := copyOuter_separate (heapNew h).2 g (h.outers g).entries (heapNew h).1 hs0
  exact ⟨hs1, fun t k => (he1 t k).trans (he0 t k)⟩

/-- On a graph that owns its inner maps `addPrice` on the heap does what
`addPrice` on values does. -/
theorem heapAddPrice_owned (h : Heap) (g : Nat) (ho : Owned h g) (t c : Commodity) (v : ℚ) :
    Owned (heapAddPrice h g t c v) g ∧
    (∀ a k, heapEntry (heapAddPrice h g t c v) g a k =
      if a = t ∧ k = c then some v else heapEntry h g a k) ∧
    (∀ a, a ∈ (heapAddPrice h g t c v).outers g → a = t ∨ a ∈ h.outers g) := by
  obtain ⟨hval, hinj⟩ := ho
  unfold heapAddPrice
  cases hl : (h.outers g).lookup t with
  | some a0 =>
    refine ⟨⟨hval, hinj⟩, ?_, fun a ha => Or.inr ha⟩
    intro a k
    unfold heapEntry
    simp only
    cases hla : (h.outers g).lookup a with
    | none =>
      have hat : a ≠ t := fun e => by rw [e, hl] at hla; exact absurd hla (by simp)
      simp [hat]
    | some a1 =>
      simp only [Option.some_bind]
      by_cases hat : a = t
      · have h10 : a1 = a0 := by
          rw [hat, hl, Option.some.injEq] at hla
          exact hla.symm
        rw [h10, Function.update_same, lookup_insert_eq]
        by_cases hk : k = c <;> simp [hat, hk]
      · have h10 : a1 ≠ a0 := fun e => hat (hinj a t a0 (by rw [hla, e]) hl)
        rw [Function.update_noteq h10]
        simp [hat]
  | none =>
    refine ⟨⟨?_, ?_⟩, ?_, ?_⟩
    · intro t1 a ha
      simp only [Function.update_same] at ha
      show a < h.nextInner + 1
      by_cases ht : t1 = t
      · rw [ht, AList.lookup_insert, Option.some.injEq] at ha
        omega
      · rw [AList.lookup_insert_ne ht] at ha
        exact Nat.lt_succ_of_lt (hval t1 a ha)
    · intro t1 t2 a ha1 ha2
      simp only [Function.update_same] at ha1 ha2
      by_cases ht1 : t1 = t
      · by_cases ht2 : t2 = t
        · rw [ht1, ht2]
        · rw [ht1, AList.lookup_insert, Option.some.injEq] at ha1
          rw [AList.lookup_insert_ne ht2] at ha2
          have := hval t2 a ha2
          omega
      · by_cases ht2 : t2 = t
        · rw [ht2, AList.lookup_insert, Option.some.injEq] at ha2
          rw [AList.lookup_insert_ne ht1] at ha1
          have := hval t1 a ha1
          omega
        · rw [AList.lookup_insert_ne ht1] at ha1
          rw [AList.lookup_insert_ne ht2] at ha2
          exact hinj t1 t2 a ha1 ha2
    · intro a k
      unfold heapEntry
      simp only [Function.update_same]
      by_cases hat : a = t
      · rw [hat, AList.lookup_insert, hl]
        simp only [Option.some_bind, Option.none_bind, Function.update_same, lookup_insert_eq,
          AList.lookup_empty]
        by_cases hk : k = c <;> simp [hk]
      · rw [AList.lookup_insert_ne hat]
        cases hla : (h.outers g).lookup a with
        | none => simp [hat]
        | some a1 =>
          have hne : a1 ≠ h.nextInner := Nat.ne_of_lt (hval a a1 hla)
          simp only [Option.some_bind, Function.update_noteq hne]
          simp [hat]
    · intro a ha
      simp only [Function.update_same] at ha
      exact (AList.mem_insert _).mp ha

/-- On a graph that owns its inner maps `Insert` on the heap does what `Insert`
on values does. -/
theorem heapInsert_owned (h : Heap) (g : Nat) (ho : Owned h g) (o : Price) :
    Owned (heapInsert h g o) g ∧
    ∀ a k, heapEntry (heapInsert h g o) g a k =
      if a = o.Commodity ∧ k = o.Target then some (1 / o.Price)
      else if a = o.Target ∧ k = o.Commodity then some o.Price
      else heapEntry h g a k := by
  unfold heapInsert
  obtain ⟨ho1, he1, _⟩ := heapAddPrice_owned h g ho o.Target o.Commodity o.Price
  obtain ⟨ho2, he2, _⟩ := heapAddPrice_owned _ g ho1 o.Commodity o.Target (1 / o.Price)
  refine ⟨ho2, fun a k => ?_⟩
  rw [he2, he1]

/-- Writing a price into one of two separate graphs leaves the outer map of the
other one and the inner maps it refers to as they were. -/
theorem heapAddPrice_frame_maps (h : Heap) (g g2 : Nat) (hs : Separate h g g2)
    (t c : Commodity) (v : ℚ) :
    (heapAddPrice h g t c v).outers g2 = h.outers g2 ∧
    ∀ t2 a, (h.outers g2).lookup t2 = some a → (heapAddPrice h g t c v).inners a = h.inners a := by
  obtain ⟨hne, _, hg2, hdisj⟩ := hs
  unfold heapAddPrice
  cases hl : (h.outers g).lookup t with
  | some a0 =>
    refine ⟨rfl, ?_⟩
    intro t2 a ha
    have hne2 : a ≠ a0 := fun e => hdisj t t2 a0 hl (by rw [ha, e])
    exact Function.update_noteq hne2 _ _
  | none =>
    refine ⟨Function.update_noteq (fun e => hne e.symm) _ _, ?_⟩
    intro t2 a ha
    exact Function.update_noteq (Nat.ne_of_lt (hg2 t2 a ha)) _ _

theorem copyInner_heap (c g : Nat) (t : Commodity) :
    ∀ (xs : List (Sigma (fun _ : Commodity => ℚ))) (hh : Heap), xs.NodupKeys →
      Separate hh c g → Owned hh c →
      Separate (xs.foldl (fun hh' x => heapAddPrice hh' c t x.1 x.2) hh) c g ∧
      Owned (xs.foldl (fun hh' x => heapAddPrice hh' c t x.1 x.2) hh) c ∧
      (xs.foldl (fun hh' x => heapAddPrice hh' c t x.1 x.2) hh).outers g = hh.outers g ∧
      (∀ t2 a, (hh.outers g).lookup t2 = some a →
        (xs.foldl (fun hh' x => heapAddPrice hh' c t x.1 x.2) hh).inners a = hh.inners a) ∧
      (∀ a k, heapEntry (xs.foldl (fun hh' x => heapAddPrice hh' c t x.1 x.2) hh) c a k =
        if a = t then
          match xs.dlookup k with
          | some v => some v
          | none => heapEntry hh c a k
        else heapEntry hh c a k) := by
  intro xs
  induction xs with
  | nil =>
    intro hh _ hs ho
    exact ⟨hs, ho, rfl, fun _ _ _ => rfl, fun a k => by simp⟩
  | cons x rest ih =>
    intro hh hnd hs ho
    have hrest : rest.NodupKeys := (List.nodupKeys_cons.mp hnd).2
    have hnotin : x.1 ∉ rest.keys := (List.nodupKeys_cons.mp hnd).1
    rw [List.foldl_cons]
    obtain ⟨hs1, _⟩ := heapAddPrice_frame hh c g hs t x.1 x.2
    obtain ⟨ho1, he1, _⟩ := heapAddPrice_owned hh c ho t x.1 x.2
    obtain ⟨hout1, hin1⟩ := heapAddPrice_frame_maps hh c g hs t x.1 x.2
    obtain ⟨hs2, ho2, hout2, hin2, he2⟩ := ih _ hrest hs1 ho1
    refine ⟨hs2, ho2, hout2.trans hout1, ?_, ?_⟩
    · intro t2 a ha
      rw [hin2 t2 a (by rw [hout1]; exact ha), hin1 t2 a ha]
    · intro a k
      rw [he2, he1]
      by_cases hat : a = t
      · simp only [hat, if_true, true_and]
        by_cases hk : k = x.1
        · subst hk
          rw [List.dlookup_eq_none.mpr hnotin, List.dlookup_cons_eq]
          simp
        · rw [List.dlookup_cons_ne _ _ hk, if_neg hk]
      · simp [hat]

theorem copyOuter_heap (c g : Nat) (k : Commodity) :
    ∀ (es : List (Sigma (fun _ : Commodity => Nat))) (hh : Heap), es.NodupKeys →
      (∀ e, e ∈ es → (hh.outers g).lookup e.1 = some e.2) →
      Separate hh c g → Owned hh c →
      ∀ a, heapEntry (es.foldl (fun hh e => (hh.inners e.2).entries.foldl
          (fun hh' x => heapAddPrice hh' c e.1 x.1 x.2) hh) hh) c a k =
        match (es.dlookup a).bind (fun addr => (hh.inners addr).lookup k) with
        | some v => some v
        | none => heapEntry hh c a k := by
  intro es
  induction es with
  | nil => intro hh _ _ _ _ a; simp
  | cons e rest ih =>
    intro hh hnd hmem hs ho a
    have hrest : rest.NodupKeys := (List.nodupKeys_cons.mp hnd).2
    have hnotin : e.1 ∉ rest.keys := (List.nodupKeys_cons.mp hnd).1
    rw [List.foldl_cons]
    obtain ⟨hs1, ho1, hout1, hin1, he1⟩ :=
      copyInner_heap c g e.1 (hh.inners e.2).entries hh (hh.inners e.2).nodupKeys hs ho
    have hmem1 : ∀ e2, e2 ∈ rest →
        (((hh.inners e.2).entries.foldl
          (fun hh' x => heapAddPrice hh' c e.1 x.1 x.2) hh).outers g).lookup e2.1 = some e2.2 := by
      intro e2 he2
      rw [hout1]
      exact hmem e2 (List.mem_cons_of_mem _ he2)
    rw [ih _ hrest hmem1 hs1 ho1 a, he1]
    by_cases ha : a = e.1
    · subst ha
      rw [List.dlookup_eq_none.mpr hnotin, List.dlookup_cons_eq]
      simp only [Option.none_bind, Option.some_bind, if_true]
      rfl
    · rw [List.dlookup_cons_ne _ _ ha, if_neg ha]
      cases hd : rest.dlookup a with
      | none => rfl
      | some addr =>
        have hin : Sigma.mk a addr ∈ rest := List.mem_dlookup_iff hrest |>.mp hd
        have hlook := hmem _ (List.mem_cons_of_mem _ hin)
        simp only [Option.some_bind]
        rw [hin1 a addr hlook]

/-- The copy has the entries of the original. -/
theorem heapCopy_content (h : Heap) (g : Nat) (hv : heapValid h g) (t k : Commodity) :
    heapEntry (heapCopy h g).1 (heapCopy h g).2 t k = heapEntry h g t k := by
  obtain ⟨hs0, _⟩ := heapNew_separate h g hv
  have hne : g ≠ h.nextOuter := Nat.ne_of_lt hv.1
  have hout : (heapNew h).1.outers g = h.outers g := Function.update_noteq hne _ _
  have hown : Owned (heapNew h).1 (heapNew h).2 := by
    constructor
    · intro t a ha
      simp only [heapNew, Function.update_same, AList.lookup_empty] at ha
      exact absurd ha (by simp)
    · intro t t2 a ha
      simp only [heapNew, Function.update_same, AList.lookup_empty] at ha
      exact absurd ha (by simp)
  have hmem : ∀ e, e ∈ (h.outers g).entries →
      ((heapNew h).1.outers g).lookup e.1 = some e.2 := by
    intro e he
    rw [hout]
    exact AList.mem_lookup_iff.mpr he
  have hnone : heapEntry (heapNew h).1 (heapNew h).2 t k = none := by
    simp [heapEntry, heapNew]
  show heapEntry ((h.outers g).entries.foldl _ (heapNew h).1) (heapNew h).2 t k = _
  rw [copyOuter_heap (heapNew h).2 g k (h.outers g).entries (heapNew h).1 (h.outers g).nodupKeys
    hmem hs0 hown t, hnone]
  unfold heapEntry
  show (match ((h.outers g).lookup t).bind (fun addr => (h.inners addr).lookup k) with
    | some v => some v
    | none => none) = _
  cases ((h.outers g).lookup t).bind (fun addr => (h.inners addr).lookup k) <;> rfl

theorem heapNew_owned (h : Heap) : Owned (heapNew h).1 (heapNew h).2 := by
  constructor
  · intro t a ha
    simp only [heapNew, Function.update_same, AList.lookup_empty] at ha
    exact absurd ha (by simp)
  · intro t t2 a ha
    simp only [heapNew, Function.update_same, AList.lookup_empty] at ha
    exact absurd ha (by simp)

theorem heapAddPrice_nextOuter (h : Heap) (g : Nat) (t c : Commodity) (v : ℚ) :
    (heapAddPrice h g t c v).nextOuter = h.nextOuter := by
  unfold heapAddPrice
  cases (h.outers g).lookup t <;> rfl

theorem heapInsert_nextOuter (h : Heap) (g : Nat) (o : Price) :
    (heapInsert h g o).nextOuter = h.nextOuter := by
  unfold heapInsert
  rw [heapAddPrice_nextOuter, heapAddPrice_nextOuter]

/-- A graph made by `New` and an `Insert` is valid. -/
theorem heapValid_new_insert (h : Heap) (o : Price) :
    heapValid (heapInsert (heapNew h).1 (heapNew h).2 o) (heapNew h).2 := by
  constructor
  · rw [heapInsert_nextOuter]
    exact Nat.lt_succ_self h.nextOuter
  · exact (heapInsert_owned _ _ (heapNew_owned h) o).1.1

/-- C11 (copy isolation): for a graph `G` at a valid address of the heap and
its copy `H = G.Copy()`, inserting an observation into `G` leaves every entry
of `H` as it was, inserting it into `H` leaves every entry of `G` as it was,
and `H` and `G` have no inner map in common. -/
theorem C11_copy_isolation (h : Heap) (g : Nat) (hv : heapValid h g) (o : Price)
    (t c : Commodity) :
    heapEntry (heapInsert (heapCopy h g).1 g o) (heapCopy h g).2 t c
      = heapEntry (heapCopy h g).1 (heapCopy h g).2 t c ∧
    heapEntry (heapInsert (heapCopy h g).1 (heapCopy h g).2 o) g t c
      = heapEntry (heapCopy h g).1 g t c ∧
    Separate (heapCopy h g).1 (heapCopy h g).2 g := by
  obtain ⟨hs, _⟩ := heapCopy_separate h g hv
  exact ⟨(heapInsert_frame _ g _ (Separate_symm _ _ _ hs) o).2 t c,
    (heapInsert_frame _ _ g hs o).2 t c, hs⟩

/-- Witness for C11: the graph at address `0` made by `New` and the insertion
of `(0, 1, 2)` on the empty heap, its copy, and the observation `(0, 1, 5)`, at
the entry `[1][0]`. -/
theorem C11_copy_isolation_witness :
    heapValid (heapInsert (heapNew emptyHeap).1 0 { Commodity := 0, Target := 1, Price := 2 }) 0 ∧
    heapEntry (heapInsert (heapCopy (heapInsert (heapNew emptyHeap).1 0
        { Commodity := 0, Target := 1, Price := 2 }) 0).1 0
        { Commodity := 0, Target := 1, Price := 5 })
      (heapCopy (heapInsert (heapNew emptyHeap).1 0
        { Commodity := 0, Target := 1, Price := 2 }) 0).2 1 0
      = heapEntry (heapCopy (heapInsert (heapNew emptyHeap).1 0
        { Commodity := 0, Target := 1, Price := 2 }) 0).1
      (heapCopy (heapInsert (heapNew emptyHeap).1 0
        { Commodity := 0, Target := 1, Price := 2 }) 0).2 1 0 ∧
    heapEntry (heapCopy (heapInsert (heapNew emptyHeap).1 0
        { Commodity := 0, Target := 1, Price := 2 }) 0).1
      (heapCopy (heapInsert (heapNew emptyHeap).1 0
        { Commodity := 0, Target := 1, Price := 2 }) 0).2 1 0 = some 2 :=
  ⟨heapValid_new_insert emptyHeap { Commodity := 0, Target := 1, Price := 2 },
   (C11_copy_isolation (heapInsert (heapNew emptyHeap).1 0
      { Commodity := 0, Target := 1, Price := 2 }) 0
      (heapValid_new_insert emptyHeap { Commodity := 0, Target := 1, Price := 2 })
      { Commodity := 0, Target := 1, Price := 5 } 1 0).1,
   by with_unfolding_all decide⟩

/-- C12 (termination): for every graph, base and schedule of frontier picks the
loop of `Normalize` is left, and the number of iterations it has performed is
the number of commodities reachable from the base. -/
theorem C12_termination (G : Prices) (b : Commodity) (sched : Nat → Nat) :
    ∃ (r : NormalizedPrices) (iters : Nat) (R : Finset Commodity),
      normalizeLoop G sched ((innerKeys G).length + 1) 0
          { todo := AList.singleton b 1, done := ∅ } = some (r, iters) ∧
      Normalize G b sched = some r ∧
      (∀ n, n ∈ R ↔ ∃ l, IsPath G b l n) ∧
      iters = R.card := by
  obtain ⟨r, iters, hloop, hN, hmem, hcard⟩ := Normalize_iterations G b sched
  refine ⟨r, iters, r.keys.toFinset, hloop, hN, ?_, hcard⟩
  intro n
  rw [List.mem_toFinset, ← AList.mem_keys, hmem n, reach_iff_path]

/-- C13, as stated, fails when an observation prices a commodity in itself:
after the single insertion of `(0, 0, 2)` the entry `graph[0][0]` holds `1/2`,
whose inverse `2` is not what `graph[0][0]` holds. -/
theorem C13_counterexample :
    (∀ o, o ∈ [({ Commodity := 0, Target := 0, Price := 2 } : Price)] → 0 < o.Price) ∧
    entry (InsertAll [{ Commodity := 0, Target := 0, Price := 2 }]) 0 0 = some (1 / 2) ∧
    entry (InsertAll [{ Commodity := 0, Target := 0, Price := 2 }]) 0 0 ≠ some (1 / (1 / 2)) := by
  have h : entry (InsertAll [{ Commodity := 0, Target := 0, Price := 2 }]) 0 0 = some (1 / 2) := by
    simp only [InsertAll, List.foldl_cons, List.foldl_nil]
    rw [entry_Insert]
    simp
  refine ⟨?_, h, ?_⟩
  · intro o ho
    rw [List.mem_singleton] at ho
    rw [ho]
    norm_num
  · rw [h]
    norm_num

/-- C13 amended (graph symmetry): for every graph obtained from `New()` by a
finite sequence of Inserts with rates `> 0` and with commodity and target
different in each of them, if `graph[a][b]` is present with value `w` then
`graph[b][a]` is present with value `1/w`. -/
theorem C13_graph_symmetry (obs : List Price)
    (hobs : ∀ o, o ∈ obs → 0 < o.Price ∧ o.Commodity ≠ o.Target) (a b : Commodity) (w : ℚ)
    (hw : entry (InsertAll obs) a b = some w) :
    entry (InsertAll obs) b a = some (1 / w) :=
  InsertAll_symmetric obs hobs a b w hw

/-- Witness for C13 amended: the observations `(0, 1, 2)` and `(1, 2, 4)`, at
the entry `graph[2][1] = 4`. -/
theorem C13_graph_symmetry_witness :
    entry (InsertAll [{ Commodity := 0, Target := 1, Price := 2 },
      { Commodity := 1, Target := 2, Price := 4 }]) 1 2 = some (1 / 4) :=
  C13_graph_symmetry [{ Commodity := 0, Target := 1, Price := 2 },
      { Commodity := 1, Target := 2, Price := 4 }]
    (by
      intro o ho
      simp only [List.mem_cons, List.mem_singleton, List.not_mem_nil, or_false] at ho
      rcases ho with ho | ho <;> rw [ho] <;> exact ⟨by norm_num, by decide⟩)
    2 1 4
    (by
      simp only [InsertAll, List.foldl_cons, List.foldl_nil]
      rw [entry_Insert]
      simp)

/-- C14 (insert frame and growth): Insert leaves every entry other than
`[target][commodity]` and `[commodity][target]` as it was, and every entry
present before the Insert is present afterwards. -/
theorem C14_insert_frame (G : Prices) (o : Price) :
    (∀ a k, ¬(a = o.Target ∧ k = o.Commodity) → ¬(a = o.Commodity ∧ k = o.Target) →
      entry (Insert G o) a k = entry G a k) ∧
    (∀ a k, hasEdge G a k → hasEdge (Insert G o) a k) ∧
    (∀ a, a ∈ G → a ∈ Insert G o) := by
  refine ⟨?_, ?_, ?_⟩
  · intro a k h1 h2
    rw [entry_Insert, if_neg h2, if_neg h1]
  · intro a k h
    rw [hasEdge, entry_Insert]
    split_ifs
    · rfl
    · rfl
    · exact h
  · intro a h
    rw [mem_Insert]
    exact Or.inr (Or.inr h)

/-- C15 (traversal-order dependence): on the graph built by inserting
`(1, 0, 2)`, `(2, 0, 3)` and `(2, 1, 5)`, the commodity `2` is reached from the
base `0` by the path `0, 2` with composed rate `3` and by the path `0, 1, 2`
with composed rate `10`; the schedule that always picks position `1` settles it
at `3`, the schedule that always picks position `0` settles it at `10`. -/
theorem C15_order_dependence :
    (∀ o, o ∈ [({ Commodity := 1, Target := 0, Price := 2 } : Price),
        { Commodity := 2, Target := 0, Price := 3 },
        { Commodity := 2, Target := 1, Price := 5 }] → 0 < o.Price) ∧
    IsPath (InsertAll [{ Commodity := 1, Target := 0, Price := 2 },
        { Commodity := 2, Target := 0, Price := 3 },
        { Commodity := 2, Target := 1, Price := 5 }]) 0 [2] 2 ∧
    pathProduct (InsertAll [{ Commodity := 1, Target := 0, Price := 2 },
        { Commodity := 2, Target := 0, Price := 3 },
        { Commodity := 2, Target := 1, Price := 5 }]) 0 [2] = some 3 ∧
    IsPath (InsertAll [{ Commodity := 1, Target := 0, Price := 2 },
        { Commodity := 2, Target := 0, Price := 3 },
        { Commodity := 2, Target := 1, Price := 5 }]) 0 [1, 2] 2 ∧
    pathProduct (InsertAll [{ Commodity := 1, Target := 0, Price := 2 },
        { Commodity := 2, Target := 0, Price := 3 },
        { Commodity := 2, Target := 1, Price := 5 }]) 0 [1, 2] = some 10 ∧
    ∃ r1 r2,
      Normalize (InsertAll [{ Commodity := 1, Target := 0, Price := 2 },
        { Commodity := 2, Target := 0, Price := 3 },
        { Commodity := 2, Target := 1, Price := 5 }]) 0 (fun _ => 1) = some r1 ∧
      Normalize (InsertAll [{ Commodity := 1, Target := 0, Price := 2 },
        { Commodity := 2, Target := 0, Price := 3 },
        { Commodity := 2, Target := 1, Price := 5 }]) 0 (fun _ => 0) = some r2 ∧
      r1.lookup 2 = some 3 ∧ r2.lookup 2 = some 10 ∧ r1.lookup 2 ≠ r2.lookup 2 := by
  have hp1 : pathProduct (InsertAll [{ Commodity := 1, Target := 0, Price := 2 },
        { Commodity := 2, Target := 0, Price := 3 },
        { Commodity := 2, Target := 1, Price := 5 }]) 0 [2] = some 3 := by
    with_unfolding_all decide
  have hp2 : pathProduct (InsertAll [{ Commodity := 1, Target := 0, Price := 2 },
        { Commodity := 2, Target := 0, Price := 3 },
        { Commodity := 2, Target := 1, Price := 5 }]) 0 [1, 2] = some 10 := by
    with_unfolding_all decide
  have hn1 : (Normalize (InsertAll [{ Commodity := 1, Target := 0, Price := 2 },
        { Commodity := 2, Target := 0, Price := 3 },
        { Commodity := 2, Target := 1, Price := 5 }]) 0 (fun _ => 1)).bind
      (fun r => r.lookup 2) = some 3 := by
    with_unfolding_all decide
  have hn2 : (Normalize (InsertAll [{ Commodity := 1, Target := 0, Price := 2 },
        { Commodity := 2, Target := 0, Price := 3 },
        { Commodity := 2, Target := 1, Price := 5 }]) 0 (fun _ => 0)).bind
      (fun r => r.lookup 2) = some 10 := by
    with_unfolding_all decide
  obtain ⟨r1, hN1, _⟩ := Normalize_spec (InsertAll [{ Commodity := 1, Target := 0, Price := 2 },
        { Commodity := 2, Target := 0, Price := 3 },
        { Commodity := 2, Target := 1, Price := 5 }]) 0 (fun _ => 1)
  obtain ⟨r2, hN2, _⟩ := Normalize_spec (InsertAll [{ Commodity := 1, Target := 0, Price := 2 },
        { Commodity := 2, Target := 0, Price := 3 },
        { Commodity := 2, Target := 1, Price := 5 }]) 0 (fun _ => 0)
  rw [hN1, Option.some_bind] at hn1
  rw [hN2, Option.some_bind] at hn2
  refine ⟨?_, ⟨pathProduct_chain _ _ _ _ hp1, rfl⟩, hp1, ⟨pathProduct_chain _ _ _ _ hp2, rfl⟩, hp2,
    r1, r2, hN1, hN2, hn1, hn2, ?_⟩
  · intro o ho
    simp only [List.mem_cons, List.mem_singleton, List.not_mem_nil, or_false] at ho
    rcases ho with ho | ho | ho <;> rw [ho] <;> norm_num
  · rw [hn1, hn2]
    norm_num

/-- C16 (settled commodities are never revisited): at every test of the loop
condition of `Normalize` the frontier and the settled set have no key in
common; a commodity settled at some iteration has the same rate and is outside
the frontier at every later one; and every rate of the returned map is the
frontier value its commodity had in the iteration that picked it. -/
theorem C16_settled_never_revisited (G : Prices) (b : Commodity) (sched : Nat → Nat) :
    (∀ i st, stateAt G b sched i = some st → ∀ k, k ∈ st.todo → k ∉ st.done) ∧
    (∀ i j st st', i ≤ j → stateAt G b sched i = some st → stateAt G b sched j = some st' →
      ∀ k v, st.done.lookup k = some v → st'.done.lookup k = some v ∧ k ∉ st'.todo) ∧
    (∃ r, Normalize G b sched = some r ∧
      ∀ k v, r.lookup k = some v →
        ∃ i st, stateAt G b sched i = some st ∧ pickAt sched i st = some ⟨k, v⟩ ∧
          st.todo.lookup k = some v) := by
  refine ⟨?_, ?_, ?_⟩
  · intro i st hst
    exact (stateAt_Inv G b sched i st hst).disjoint
  · intro i j st st' hij hst hst' k v hkv
    exact stateAt_done_stable G b sched i st hst k v hkv j st' hij hst'
  · obtain ⟨n, st, hN, hst, _⟩ := Normalize_stateAt G b sched
    refine ⟨st.done, hN, ?_⟩
    intro k v hkv
    obtain ⟨i, sti, _, h1, h2, h3⟩ := stateAt_done_picked G b sched n st hst k v hkv
    exact ⟨i, sti, h1, h2, h3⟩

/-- C17 (every normalized rate is witnessed by a path): for every graph, base
and schedule, `Normalize` returns, and for every commodity `n` of the result
there is a path of graph edges from the base to `n` whose product of edge
weights is the returned rate of `n` (the empty product `1` for the base). -/
theorem C17_rate_witnessed_by_path (G : Prices) (b : Commodity) (sched : Nat → Nat) :
    ∃ r, Normalize G b sched = some r ∧
      ∀ n v, r.lookup n = some v → ∃ l, IsPath G b l n ∧ pathProduct G b l = some v := by
  obtain ⟨r, hN, _, _, hrate⟩ := Normalize_spec G b sched
  exact ⟨r, hN, fun n v h => PathRate_path G b n v (hrate n v h)⟩

/-- C18 (determinism on consistent graphs): if a valuation `val` without zeros
has `G[a][c] = val c / val a` for every entry of `G`, then for every base and
every two schedules `Normalize` returns, gives every commodity reachable from
the base the rate `val n / val b`, and gives the same rates under both
schedules. -/
theorem C18_consistent_deterministic (G : Prices) (val : Commodity → ℚ)
    (hval : ∀ c, val c ≠ 0) (hG : ∀ a c w, entry G a c = some w → w = val c / val a)
    (b : Commodity) (s1 s2 : Nat → Nat) :
    ∃ r1 r2, Normalize G b s1 = some r1 ∧ Normalize G b s2 = some r2 ∧
      (∀ n, (∃ l, IsPath G b l n) → r1.lookup n = some (val n / val b)) ∧
      (∀ n, r1.lookup n = r2.lookup n) := by
  obtain ⟨r1, hN1, h1⟩ := Normalize_consistent G val hval hG b s1
  obtain ⟨r2, hN2, h2⟩ := Normalize_consistent G val hval hG b s2
  refine ⟨r1, r2, hN1, hN2, ?_, ?_⟩
  · intro n hn
    exact (h1 n).1 ((reach_iff_path G b n).mpr hn)
  · intro n
    by_cases hreach : Relation.ReflTransGen (hasEdge G) b n
    · rw [(h1 n).1 hreach, (h2 n).1 hreach]
    · rw [(h1 n).2 hreach, (h2 n).2 hreach]

/-- Witness for C18: the graph of the observation `(0, 1, 2)` with the
valuation `val 0 = 2`, `val k = 1` otherwise, base `1`, commodity `0`. -/
theorem C18_consistent_deterministic_witness :
    ∃ r1 r2,
      Normalize (Insert New { Commodity := 0, Target := 1, Price := 2 }) 1 (fun _ => 0)
        = some r1 ∧
      Normalize (Insert New { Commodity := 0, Target := 1, Price := 2 }) 1 (fun i => i)
        = some r2 ∧
      (∀ n, (∃ l, IsPath (Insert New { Commodity := 0, Target := 1, Price := 2 }) 1 l n) →
        r1.lookup n = some ((if n = 0 then 2 else 1) / (if (1 : Nat) = 0 then 2 else 1))) ∧
      (∀ n, r1.lookup n = r2.lookup n) :=
  C18_consistent_deterministic (Insert New { Commodity := 0, Target := 1, Price := 2 })
    (fun k => if k = 0 then 2 else 1)
    (by
      intro c
      by_cases hc : c = 0 <;> simp [hc])
    (by
      intro a c w hw
      rw [entry_Insert, entry_New] at hw
      split_ifs at hw with h1 h2
      · rw [Option.some.injEq] at hw
        simp [h1.1, h1.2, ← hw]
      · rw [Option.some.injEq] at hw
        simp [h2.1, h2.2, ← hw])
    1 (fun _ => 0) (fun i => i)

/-! ## Rates in `float64` -/

theorem InsertWith_exact (p : Prices) (pr : Price) : InsertWith exactOps p pr = Insert p pr :=
  rfl

theorem loopBodyWith_exact (p : Prices) (st : LoopState) (cur : Sigma (fun _ : Commodity => ℚ)) :
    loopBodyWith exactOps p st cur = loopBody p st cur :=
  rfl

theorem normalizeLoopWith_exact (p : Prices) (sched : Nat → Nat) :
    ∀ (fuel iter : Nat) (st : LoopState),
      normalizeLoopWith exactOps p sched fuel iter st = normalizeLoop p sched fuel iter st := by
  intro fuel
  induction fuel with
  | zero => intro iter st; rfl
  | succ fuel ih =>
    intro iter st
    unfold normalizeLoopWith normalizeLoop
    by_cases h : 0 < st.todo.entries.length
    · simp only [h, dite_true, loopBodyWith_exact]
      exact ih _ _
    · simp only [h, dite_false]

/-- With exact operations the parametrised `Normalize` is `Normalize`. -/
theorem NormalizeWith_exact (p : Prices) (c : Commodity) (sched : Nat → Nat) :
    NormalizeWith exactOps p c sched = Normalize p c sched := by
  unfold NormalizeWith Normalize
  rw [normalizeLoopWith_exact]

theorem normalizeLoopWith_step (ops : RateOps) (p : Prices) (sched : Nat → Nat)
    (fuel iter : Nat) (st : LoopState) (cur : Sigma (fun _ : Commodity => ℚ))
    (h : st.todo.entries = [cur]) :
    normalizeLoopWith ops p sched (fuel + 1) iter st =
      normalizeLoopWith ops p sched fuel (iter + 1) (loopBodyWith ops p st cur) := by
  have hlen : 0 < st.todo.entries.length := by rw [h]; exact Nat.zero_lt_one
  have hget : st.todo.entries.get ⟨sched iter % st.todo.entries.length, Nat.mod_lt _ hlen⟩
      = cur := by
    have hall : ∀ x, x ∈ st.todo.entries → x = cur := by
      intro x hx
      rw [h] at hx
      exact List.mem_singleton.mp hx
    exact hall _ (List.get_mem st.todo.entries (sched iter % st.todo.entries.length)
      (Nat.mod_lt _ hlen))
  rw [normalizeLoopWith]
  simp only [hlen, dite_true, hget]

theorem normalizeLoopWith_empty (ops : RateOps) (p : Prices) (sched : Nat → Nat)
    (fuel iter : Nat) (st : LoopState) (h : st.todo.entries = []) :
    normalizeLoopWith ops p sched fuel iter st = some (st.done, iter) := by
  cases fuel with
  | zero => simp [normalizeLoopWith, h]
  | succ fuel => simp [normalizeLoopWith, h]

/-- The run of the parametrised `Normalize` on the chain built by inserting
`(1, 0, w1)` and `(2, 1, w2)`, for the base `0`: the frontier never holds more
than one entry, so every schedule settles `1` at `w1 * 1` and then `2` at
`w2 * (w1 * 1)`, in the arithmetic of `ops`. -/
theorem NormalizeWith_chain (ops : RateOps) (w1 w2 : ℚ) (sched : Nat → Nat) :
    NormalizeWith ops
        (InsertWith ops (InsertWith ops New { Commodity := 1, Target := 0, Price := w1 })
          { Commodity := 2, Target := 1, Price := w2 }) 0 sched =
      some (((AList.singleton 0 1 : NormalizedPrices).insert 1 (ops.mul w1 1)).insert 2
        (ops.mul w2 (ops.mul w1 1))) := by
  have hfuel : (innerKeys (InsertWith ops
      (InsertWith ops New { Commodity := 1, Target := 0, Price := w1 })
      { Commodity := 2, Target := 1, Price := w2 })).length + 1 = 4 + 1 := rfl
  have h1 : loopBodyWith ops (InsertWith ops
      (InsertWith ops New { Commodity := 1, Target := 0, Price := w1 })
      { Commodity := 2, Target := 1, Price := w2 })
      { todo := AList.singleton 0 1, done := ∅ } ⟨0, 1⟩ =
      { todo := AList.singleton 1 (ops.mul w1 1), done := AList.singleton 0 1 } := rfl
  have h2 : loopBodyWith ops (InsertWith ops
      (InsertWith ops New { Commodity := 1, Target := 0, Price := w1 })
      { Commodity := 2, Target := 1, Price := w2 })
      { todo := AList.singleton 1 (ops.mul w1 1), done := AList.singleton 0 1 }
      ⟨1, ops.mul w1 1⟩ =
      { todo := AList.singleton 2 (ops.mul w2 (ops.mul w1 1)),
        done := (AList.singleton 0 1 : NormalizedPrices).insert 1 (ops.mul w1 1) } := rfl
  have h3 : loopBodyWith ops (InsertWith ops
      (InsertWith ops New { Commodity := 1, Target := 0, Price := w1 })
      { Commodity := 2, Target := 1, Price := w2 })
      { todo := AList.singleton 2 (ops.mul w2 (ops.mul w1 1)),
        done := (AList.singleton 0 1 : NormalizedPrices).insert 1 (ops.mul w1 1) }
      ⟨2, ops.mul w2 (ops.mul w1 1)⟩ =
      { todo := ∅,
        done := ((AList.singleton 0 1 : NormalizedPrices).insert 1 (ops.mul w1 1)).insert 2
          (ops.mul w2 (ops.mul w1 1)) } := rfl
  unfold NormalizeWith
  rw [hfuel, normalizeLoopWith_step ops _ sched 4 0 _ ⟨0, 1⟩ rfl, h1,
    normalizeLoopWith_step ops _ sched 3 1 _ ⟨1, ops.mul w1 1⟩ rfl, h2,
    normalizeLoopWith_step ops _ sched 2 2 _ ⟨2, ops.mul w2 (ops.mul w1 1)⟩ rfl, h3,
    normalizeLoopWith_empty ops _ sched _ _ _ rfl]
  rfl

theorem roundEven_intCast (n : ℤ) : roundEven (n : ℚ) = n := by
  unfold roundEven
  rw [Int.floor_intCast]
  simp

theorem roundEven_small (x : ℚ) (h0 : 0 ≤ x) (h1 : x < 1 / 2) : roundEven x = 0 := by
  have hfloor : ⌊x⌋ = 0 := by
    rw [Int.floor_eq_zero_iff]
    exact ⟨h0, lt_trans h1 (by norm_num)⟩
  unfold roundEven
  rw [hfloor]
  simp only [Int.cast_zero, sub_zero]
  rw [if_pos h1]

theorem exponent64_zpow (z : ℤ) : exponent64 |(2 : ℚ) ^ z| = max z (-1022) := by
  have hpos : (0 : ℚ) < 2 ^ z := zpow_pos (by norm_num) z
  have hlog : Int.log 2 ((2 : ℚ) ^ z) = z := by
    have h := Int.log_zpow (R := ℚ) (b := 2) (by norm_num) z
    simpa using h
  unfold exponent64
  rw [abs_of_pos hpos, hlog]

/-- A power of two in the normal range is a `float64`. -/
theorem round64_zpow_normal (z : ℤ) (hz : -1022 ≤ z) : round64 ((2 : ℚ) ^ z) = 2 ^ z := by
  have h2 : (2 : ℚ) ≠ 0 := by norm_num
  unfold round64
  rw [exponent64_zpow, max_eq_left hz, ← zpow_sub₀ h2]
  have hq : (2 : ℚ) ^ (z - (z - 52)) = ((2 ^ 52 : ℤ) : ℚ) := by
    have : z - (z - 52) = 52 := by ring
    rw [this]
    norm_num
  rw [hq, roundEven_intCast]
  have hback : ((2 ^ 52 : ℤ) : ℚ) = (2 : ℚ) ^ (52 : ℤ) := by norm_num
  rw [hback, ← zpow_add₀ h2]
  congr 1
  ring

/-- A power of two below a quarter of the smallest positive `float64` is
rounded to zero. -/
theorem round64_zpow_tiny (z : ℤ) (hz : z < -1075) : round64 ((2 : ℚ) ^ z) = 0 := by
  have h2 : (2 : ℚ) ≠ 0 := by norm_num
  unfold round64
  rw [exponent64_zpow, max_eq_right (by omega), ← zpow_sub₀ h2]
  have hsmall : (2 : ℚ) ^ (z - (-1022 - 52)) < 1 / 2 := by
    have h1 : (2 : ℚ) ^ (z - (-1022 - 52)) < 2 ^ (-1 : ℤ) :=
      zpow_lt_zpow_right₀ (by norm_num) (by omega)
    have h3 : (2 : ℚ) ^ (-1 : ℤ) = 1 / 2 := by norm_num
    rw [h3] at h1
    exact h1
  rw [roundEven_small _ (le_of_lt (zpow_pos (by norm_num) _)) hsmall]
  simp

/-- C19, as stated, fails in `float64`: on the graph built by inserting
`(1, 0, 2^-600)` and `(2, 1, 2^-600)`, whose rates are positive `float64`
values, the commodity `2` is normalised for the base `0` to the rounded product
`2^-600 * 2^-600`, which underflows to `0`.  The exact results that are rounded
in this run are `2^600`, `2^-600` and `2^-1200`, so no operation overflows. -/
theorem C19_counterexample :
    (0 : ℚ) < 2 ^ (-600 : ℤ) ∧ round64 (2 ^ (-600 : ℤ)) = 2 ^ (-600 : ℤ) ∧
    ∃ r, NormalizeWith float64Ops (InsertWith float64Ops (InsertWith float64Ops New
          { Commodity := 1, Target := 0, Price := 2 ^ (-600 : ℤ) })
          { Commodity := 2, Target := 1, Price := 2 ^ (-600 : ℤ) }) 0 (fun _ => 0) = some r ∧
      r.lookup 2 = some 0 ∧ ¬(∀ k v, r.lookup k = some v → 0 < v) := by
  have h2 : (2 : ℚ) ≠ 0 := by norm_num
  have hw : round64 ((2 : ℚ) ^ (-600 : ℤ)) = 2 ^ (-600 : ℤ) :=
    round64_zpow_normal (-600) (by norm_num)
  have hm1 : float64Ops.mul (2 ^ (-600 : ℤ)) 1 = 2 ^ (-600 : ℤ) := by
    show round64 ((2 : ℚ) ^ (-600 : ℤ) * 1) = _
    rw [mul_one, hw]
  have hm2 : float64Ops.mul (2 ^ (-600 : ℤ)) (2 ^ (-600 : ℤ)) = 0 := by
    show round64 ((2 : ℚ) ^ (-600 : ℤ) * 2 ^ (-600 : ℤ)) = 0
    rw [← zpow_add₀ h2]
    exact round64_zpow_tiny _ (by norm_num)
  have hlook : (((AList.singleton 0 1 : NormalizedPrices).insert 1
      (float64Ops.mul (2 ^ (-600 : ℤ)) 1)).insert 2
      (float64Ops.mul (2 ^ (-600 : ℤ)) (float64Ops.mul (2 ^ (-600 : ℤ)) 1))).lookup 2
      = some 0 := by
    rw [AList.lookup_insert, hm1, hm2]
  refine ⟨zpow_pos (by norm_num) _, hw, _,
    NormalizeWith_chain float64Ops _ _ (fun _ => 0), hlook, ?_⟩
  intro hall
  exact lt_irrefl 0 (hall 2 0 hlook)

/-- C19 amended (positivity is preserved in exact arithmetic): for every graph
obtained from `New()` by Inserts with rates `> 0`, every stored rate is `> 0`,
and for every base and schedule `Normalize` returns and every returned rate is
`> 0`, the rates and their products being taken in exact rational
arithmetic. -/
theorem C19_positivity (obs : List Price) (hobs : ∀ o, o ∈ obs → 0 < o.Price) :
    (∀ a c w, entry (InsertAll obs) a c = some w → 0 < w) ∧
    (∀ (b : Commodity) (sched : Nat → Nat),
      ∃ r, Normalize (InsertAll obs) b sched = some r ∧ ∀ k v, r.lookup k = some v → 0 < v) :=
  ⟨InsertAll_positive obs hobs,
   fun b sched => Normalize_positive (InsertAll obs) b sched (InsertAll_positive obs hobs)⟩

/-- Witness for C19: the observations `(0, 1, 2)` and `(1, 2, 4)`. -/
theorem C19_positivity_witness :
    (∀ a c w, entry (InsertAll [{ Commodity := 0, Target := 1, Price := 2 },
        { Commodity := 1, Target := 2, Price := 4 }]) a c = some w → 0 < w) ∧
    (∀ (b : Commodity) (sched : Nat → Nat),
      ∃ r, Normalize (InsertAll [{ Commodity := 0, Target := 1, Price := 2 },
          { Commodity := 1, Target := 2, Price := 4 }]) b sched = some r ∧
        ∀ k v, r.lookup k = some v → 0 < v) :=
  C19_positivity [{ Commodity := 0, Target := 1, Price := 2 },
      { Commodity := 1, Target := 2, Price := 4 }]
    (by
      intro o ho
      simp only [List.mem_cons, List.mem_singleton, List.not_mem_nil, or_false] at ho
      rcases ho with ho | ho <;> rw [ho] <;> norm_num)

/-- C20 (inserting the inverse observation is redundant): for distinct `c`, `t`
and `r > 0`, inserting `(c, t, r)` and inserting `(t, c, 1/r)` give graphs with
the same entries and the same outer keys, and inserting one after the other,
in either order, gives the same entries as inserting `(c, t, r)` alone. -/
theorem C20_inverse_redundant (G : Prices) (c t : Commodity) (r : ℚ) (hct : c ≠ t)
    (hr : 0 < r) :
    (∀ a k, entry (Insert G { Commodity := c, Target := t, Price := r }) a k =
      entry (Insert G { Commodity := t, Target := c, Price := 1 / r }) a k) ∧
    (∀ a, a ∈ Insert G { Commodity := c, Target := t, Price := r } ↔
      a ∈ Insert G { Commodity := t, Target := c, Price := 1 / r }) ∧
    (∀ a k, entry (Insert (Insert G { Commodity := c, Target := t, Price := r })
        { Commodity := t, Target := c, Price := 1 / r }) a k =
      entry (Insert G { Commodity := c, Target := t, Price := r }) a k) ∧
    (∀ a k, entry (Insert (Insert G { Commodity := t, Target := c, Price := 1 / r })
        { Commodity := c, Target := t, Price := r }) a k =
      entry (Insert G { Commodity := c, Target := t, Price := r }) a k) := by
  have hr' : r ≠ 0 := ne_of_gt hr
  have hinv : 1 / (1 / r) = r := by field_simp
  have hcases : ∀ a k, (a = c ∧ k = t) → ¬(a = t ∧ k = c) :=
    fun a k h1 h => hct (h1.1.symm.trans h.1)
  refine ⟨?_, ?_, ?_, ?_⟩
  · intro a k
    simp only [entry_Insert, hinv]
    by_cases h1 : a = c ∧ k = t
    · simp only [if_pos h1, if_neg (hcases a k h1)]
    · by_cases h2 : a = t ∧ k = c
      · simp only [if_neg h1, if_pos h2]
      · simp only [if_neg h1, if_neg h2]
  · intro a
    rw [mem_Insert, mem_Insert]
    constructor
    · rintro (h | h | h)
      · exact Or.inr (Or.inl h)
      · exact Or.inl h
      · exact Or.inr (Or.inr h)
    · rintro (h | h | h)
      · exact Or.inr (Or.inl h)
      · exact Or.inl h
      · exact Or.inr (Or.inr h)
  · intro a k
    simp only [entry_Insert, hinv]
    by_cases h1 : a = c ∧ k = t
    · simp only [if_pos h1, if_neg (hcases a k h1)]
    · by_cases h2 : a = t ∧ k = c
      · simp only [if_neg h1, if_pos h2]
      · simp only [if_neg h1, if_neg h2]
  · intro a k
    simp only [entry_Insert, hinv]
    by_cases h1 : a = c ∧ k = t
    · simp only [if_pos h1]
    · by_cases h2 : a = t ∧ k = c
      · simp only [if_neg h1, if_pos h2]
      · simp only [if_neg h1, if_neg h2]

/-- Witness for C20: `c = 0`, `t = 1`, `r = 2` on the empty graph. -/
theorem C20_inverse_redundant_witness :
    (∀ a k, entry (Insert New { Commodity := 0, Target := 1, Price := 2 }) a k =
      entry (Insert New { Commodity := 1, Target := 0, Price := 1 / 2 }) a k) ∧
    (∀ a, a ∈ Insert New { Commodity := 0, Target := 1, Price := 2 } ↔
      a ∈ Insert New { Commodity := 1, Target := 0, Price := 1 / 2 }) ∧
    (∀ a k, entry (Insert (Insert New { Commodity := 0, Target := 1, Price := 2 })
        { Commodity := 1, Target := 0, Price := 1 / 2 }) a k =
      entry (Insert New { Commodity := 0, Target := 1, Price := 2 }) a k) ∧
    (∀ a k, entry (Insert (Insert New { Commodity := 1, Target := 0, Price := 1 / 2 })
        { Commodity := 0, Target := 1, Price := 2 }) a k =
      entry (Insert New { Commodity := 0, Target := 1, Price := 2 }) a k) :=
  C20_inverse_redundant New 0 1 2 (by decide) (by norm_num)

end Knut
